import Mathlib

/-!
Verification of the assemblr orchestration core (dag.rs, assembly.rs, registry.rs).

The Rust sources are shallowly embedded as executable Lean definitions:

* HashMap-backed collections become insertion-ordered association lists or
  total functions with pointwise update; HashMap iteration order is
  unspecified in Rust, and the embedding fixes insertion order as one
  admissible schedule (the properties proved below do not depend on the
  choice).
* Recursive or while-loop code (depth-first search, the Kahn worklist loop,
  the cycle-path reconstruction walk) is written with an explicit fuel
  parameter.  Fuel exhaustion returns the defensive default; the theorems
  below are either fuel-independent or evaluate on concrete inputs where the
  supplied fuel is ample.
* usize arithmetic appears only as in-degree counters; the single decrement
  site is proved (via the loop invariants) never to underflow on graphs
  built through add_vertex/add_edge, so Nat subtraction is faithful there.
* Lifecycle hooks are trait objects whose only observable interaction with
  the orchestrator is the Result value they return; an assembly is embedded
  as a record holding those outcomes, and the orchestrator additionally
  returns the trace of hook invocations so that claims about which hooks
  run (and in which order) can be stated.  Logging and the service-registry
  plumbing inside contexts have no bearing on the claims and are omitted.
-/

namespace Assemblr

/-- TypeKey pairs a TypeId with the type name and is used only through
equality, hashing and Display (which prints the name).  The embedding
identifies a capability with its display name. -/
abbrev TypeKey := String

/-- The error enum of assembly.rs. -/
inductive AssemblyError where
  | InvalidRuntimeMode (mode : String)
  | MissingDependency (assembly : String) (message : String)
  | CyclicDependency (info : String)
  | GeneralError (message : String)
deriving DecidableEq, Repr

/-- The crate-wide Result alias. -/
abbrev Result (A : Type) := Except AssemblyError A

instance {A : Type} [DecidableEq A] : DecidableEq (Result A) :=
  fun x y =>
    match x, y with
    | .ok a, .ok b => if h : a = b then .isTrue (by rw [h]) else .isFalse (by simp [h])
    | .error a, .error b => if h : a = b then .isTrue (by rw [h]) else .isFalse (by simp [h])
    | .ok _, .error _ => .isFalse (by simp)
    | .error _, .ok _ => .isFalse (by simp)

/-- Display rendering of AssemblyError, from the thiserror error attributes. -/
def AssemblyError.display : AssemblyError → String
  | .InvalidRuntimeMode m => "Invalid runtime mode: " ++ m
  | .MissingDependency a msg => "Assembly \x27" ++ a ++ "\x27 error: " ++ msg
  | .CyclicDependency info => "Cyclic dependency detected in assembly graph (" ++ info ++ ")"
  | .GeneralError msg => msg

/-- The runtime mode enum. -/
inductive RuntimeMode where
  | Debug
  | Development
  | Production
deriving DecidableEq, Repr

/-- RuntimeMode::parse.  The source matches on mode.to_lowercase(); the
or-patterns become an if-chain.  String.toLower models Rust to_lowercase
(they agree on ASCII input). -/
def RuntimeMode.parse (mode : String) : Result RuntimeMode :=
  let m := mode.toLower
  if m = "production" ∨ m = "prod" then .ok .Production
  else if m = "development" ∨ m = "dev" then .ok .Development
  else if m = "debug" then .ok .Debug
  else .error (.InvalidRuntimeMode mode)

/-! ### dag.rs -/

def UNVISITED : Nat := 0

def VISITING : Nat := 1

def VISITED : Nat := 2

/-- A node in the graph. -/
structure Vertex (T : Type) where
  id : String
  value : T
  edges : List String
deriving DecidableEq, Repr

/-- A directed graph; the vertices HashMap becomes an insertion-ordered list
whose ids are kept unique by add_vertex. -/
structure Graph (T : Type) where
  vertices : List (Vertex T)
deriving DecidableEq, Repr

/-- Contains both the sorted order and any detected cycles. -/
structure SortResult where
  sorted_order : List String
  has_cycle : Bool
  cycle_path : List String
deriving DecidableEq, Repr

namespace Graph

/-- Graph::new. -/
def new {T : Type} : Graph T := ⟨[]⟩

/-- The key set of the vertices map. -/
def ids {T : Type} (g : Graph T) : List String := g.vertices.map (·.id)

/-- HashMap::contains_key on the vertices map. -/
def containsId {T : Type} (g : Graph T) (id : String) : Bool :=
  g.vertices.any (fun v => v.id == id)

/-- HashMap::get on the vertices map. -/
def findVertex {T : Type} (g : Graph T) (id : String) : Option (Vertex T) :=
  g.vertices.find? (fun v => v.id == id)

/-- Graph::add_vertex: inserts a vertex if the id is new, otherwise a no-op. -/
def add_vertex {T : Type} (g : Graph T) (id : String) (value : T) : Graph T :=
  if g.containsId id then g else ⟨g.vertices ++ [⟨id, value, []⟩]⟩

/-- Graph::add_edge: adds from_id → to_id when both vertices exist and the
edge is not already present. -/
def add_edge {T : Type} (g : Graph T) (from_id to_id : String) : Graph T :=
  if g.containsId from_id ∧ g.containsId to_id then
    ⟨g.vertices.map (fun v =>
      if v.id = from_id ∧ ¬ to_id ∈ v.edges then
        { v with edges := v.edges ++ [to_id] }
      else v)⟩
  else g

/-- Edge list of the vertex with the given id (empty when absent), matching
the if-let lookups in the source. -/
def edgesOf {T : Type} (g : Graph T) (id : String) : List String :=
  match g.findVertex id with
  | some v => v.edges
  | none => []

end Graph

/-! DFS cycle detection.  The visit-state map becomes a total function
defaulting to UNVISITED (the source reads absent keys with
unwrap_or(&UNVISITED)); the parent map becomes String → Option String with
get(...).unwrap_or_default() read as getD of the empty string. -/

/-- Pointwise update of the visit-state map. -/
def setState (vs : String → Nat) (x : String) (s : Nat) : String → Nat :=
  fun y => if y = x then s else vs y

/-- Pointwise update of the parent map. -/
def setParent (par : String → Option String) (x p : String) : String → Option String :=
  fun y => if y = x then some p else par y

/-- The while loop tracing the parent chain from current back to the
back-edge target, collecting the intermediate vertices. -/
def traceBack (par : String → Option String) : Nat → String → String → List String
  | 0, _, _ => []
  | fuel + 1, current, target =>
    if current = target then []
    else current :: traceBack par fuel ((par current).getD "") target

/-- Cycle reconstruction in Graph::detect_cycle: start from the back-edge
target, walk parents from the current vertex, close the loop, reverse. -/
def buildCycle (fuel : Nat) (par : String → Option String) (vertex_id neighbor_id : String) :
    List String :=
  (neighbor_id :: traceBack par fuel vertex_id neighbor_id ++ [neighbor_id]).reverse

/-- Result of one DFS call: the found/path pair returned by the source plus
the two maps it mutates in place. -/
structure DfsOut where
  found : Bool
  path : List String
  state : String → Nat
  parent : String → Option String

mutual

/-- Graph::detect_cycle (the recursive DFS).  Fuel decreases on every call;
it is exhausted on no graph reachable through the builder API with the
budget supplied by detect_cycle_with_path. -/
def detect_cycle {T : Type} (g : Graph T) : Nat → String → (String → Nat) →
    (String → Option String) → DfsOut
  | 0, _, vs, par => ⟨false, [], vs, par⟩
  | fuel + 1, vertex_id, vs, par =>
    let vs1 := setState vs vertex_id VISITING
    let out := dfsNeighbors g fuel vertex_id (g.edgesOf vertex_id) vs1 par
    if out.found then out
    else { out with found := false, path := [], state := setState out.state vertex_id VISITED }

/-- The for-loop over a vertex's neighbors inside Graph::detect_cycle. -/
def dfsNeighbors {T : Type} (g : Graph T) : Nat → String → List String → (String → Nat) →
    (String → Option String) → DfsOut
  | 0, _, _, vs, par => ⟨false, [], vs, par⟩
  | _ + 1, _, [], vs, par => ⟨false, [], vs, par⟩
  | fuel + 1, vertex_id, n :: rest, vs, par =>
    let st := vs n
    if st = VISITING then
      ⟨true, buildCycle (g.vertices.length + 1) par vertex_id n, vs, par⟩
    else if st = UNVISITED then
      let out := detect_cycle g fuel n vs (setParent par n vertex_id)
      if out.found then out
      else dfsNeighbors g fuel vertex_id rest out.state out.parent
    else
      dfsNeighbors g fuel vertex_id rest vs par

end

/-- Fuel budget handed to each top-level DFS call. -/
def dfsFuel {T : Type} (g : Graph T) : Nat :=
  (g.vertices.length + 1) * ((g.vertices.map (·.edges.length)).sum + 2)

/-- The loop of detect_cycle_with_path: try DFS from each unvisited vertex. -/
def dcwpLoop {T : Type} (g : Graph T) : List String → (String → Nat) →
    (String → Option String) → Bool × List String
  | [], _, _ => (false, [])
  | id :: rest, vs, par =>
    if vs id = UNVISITED then
      let out := detect_cycle g (dfsFuel g) id vs par
      if out.found then (true, out.path)
      else dcwpLoop g rest out.state out.parent
    else dcwpLoop g rest vs par

/-- Graph::detect_cycle_with_path. -/
def Graph.detect_cycle_with_path {T : Type} (g : Graph T) : Bool × List String :=
  dcwpLoop g g.ids (fun _ => UNVISITED) (fun _ => none)

/-! Kahn worklist phase of topological_sort.  The in-degree HashMap becomes
a total function (every key the source can touch is initialized before the
loop runs); the Vec used as a queue pops at the front and pushes at the
back, exactly as queue.remove(0) / queue.push do. -/

/-- In-degree of a vertex id: the number of edge occurrences targeting it. -/
def inDegree {T : Type} (g : Graph T) (x : String) : Nat :=
  (g.vertices.map (fun v => v.edges.count x)).sum

/-- Inner loop of the Kahn phase: decrement the in-degree of each edge
target of the dequeued vertex, enqueueing targets that reach zero. -/
def processEdges (deg : String → Nat) (queue : List String) :
    List String → (String → Nat) × List String
  | [] => (deg, queue)
  | e :: es =>
    let d := deg e - 1
    let deg' := fun x => if x = e then d else deg x
    if d = 0 then processEdges deg' (queue ++ [e]) es
    else processEdges deg' queue es

/-- The while-loop of the Kahn phase.  Each iteration dequeues one vertex,
and (as proved below) no vertex is ever enqueued twice, so the vertex count
bounds the iterations and serves as fuel. -/
def kahnLoop {T : Type} (g : Graph T) : Nat → List String → (String → Nat) →
    List String → List String
  | 0, _, _, ord => ord
  | _ + 1, [], _, ord => ord
  | fuel + 1, u :: rest, deg, ord =>
    let p := processEdges deg rest (g.edgesOf u)
    kahnLoop g fuel p.2 p.1 (ord ++ [u])

/-- Graph::topological_sort.  The source counts dequeued vertices in a
separate visited counter; visited and sorted_order.len() are incremented
together, so the embedding compares the output length directly. -/
def Graph.topological_sort {T : Type} (g : Graph T) : SortResult :=
  let dfs := g.detect_cycle_with_path
  if dfs.1 then ⟨[], true, dfs.2⟩
  else
    let seeds := g.ids.filter (fun x => inDegree g x == 0)
    let ord := kahnLoop g g.vertices.length seeds (fun x => inDegree g x) []
    if ord.length = g.vertices.length then ⟨ord, false, dfs.2⟩
    else ⟨[], true, dfs.2⟩

/-! ### registry.rs

The registry module compiled into the crate (the one assembly.rs imports
RegistryWriteHandle from and the integration tests exercise) is not the
standalone registry.rs variant shipped under src, which exposes an
Option-returning get and no write handle.  Its resolve operation is
therefore modelled from the spec. -/

/-- Outcome of a resolve call: either the stored instance or an abort of the
calling context (a panic, not a normal error return). -/
inductive ResolveOutcome (V : Type) where
  | found (v : V)
  | aborted (message : String)
deriving DecidableEq, Repr

/-- The type-keyed store: newer registrations shadow older ones, modelling
HashMap::insert replace semantics. -/
def ServiceRegistry (V : Type) := List (TypeKey × V)

/-- Lookup of the newest entry for a key. -/
def ServiceRegistry.lookup {V : Type} (r : ServiceRegistry V) (k : TypeKey) : Option V :=
  match r with
  | [] => none
  | (k', v) :: rest => if k' = k then some v else ServiceRegistry.lookup rest k

/-- ServiceRegistry::register (shared by the write handle): store one
instance per capability identity, replacing any prior entry. -/
def ServiceRegistry.register {V : Type} (r : ServiceRegistry V) (k : TypeKey) (v : V) :
    ServiceRegistry V :=
  (k, v) :: r

/-- Modelled from the spec: resolve returns the shared instance for the key
and aborts the calling context (unrecoverable, not a normal error return)
when the key is absent; the abort message observed by the tests names the
missing service. -/
def ServiceRegistry.resolve {V : Type} (r : ServiceRegistry V) (k : TypeKey) :
    ResolveOutcome V :=
  match r.lookup k with
  | some v => .found v
  | none => .aborted ("Service \x27" ++ k ++ "\x27 not found in registry")

/-! ### assembly.rs -/

/-- A service assembly, embedded as its declared metadata together with the
outcome each lifecycle hook reports when invoked. -/
structure ServiceAssembly where
  name : String
  provides : List TypeKey
  requires : List TypeKey
  init : Result Unit
  prepare : Result Unit
  start : Result Unit
  finalize : Result Unit
  shutdown : Result Unit
deriving DecidableEq, Repr

/-- One observable lifecycle-hook invocation, tagged with the assembly name. -/
inductive LifecycleEvent where
  | init (name : String)
  | prepare (name : String)
  | start (name : String)
  | finalize (name : String)
  | shutdown (name : String)
deriving DecidableEq, Repr

/-- Association-list lookup for the provided-capability map. -/
def lookupKey (m : List (TypeKey × String)) (k : TypeKey) : Option String :=
  match m with
  | [] => none
  | (k', v) :: rest => if k' = k then some v else lookupKey rest k

/-- The mapped_assemblies HashMap built in the vertex pass of assemble():
each provided capability maps to its providing assembly, the last
registration with a capability winning.  Newer inserts are prepended so
that lookupKey finds them first. -/
def mappedAssemblies : List ServiceAssembly → List (TypeKey × String)
  | [] => []
  | a :: rest => mappedAssemblies rest ++ a.provides.reverse.map (fun k => (k, a.name))

/-- The vertex pass of assemble(): one graph vertex per assembly, keyed and
valued by its name. -/
def buildVerts (assemblies : List ServiceAssembly) : Graph String :=
  assemblies.foldl (fun g a => g.add_vertex a.name a.name) Graph.new

/-- The inner loop of the edge pass: for each required capability of one
assembly, add the dependency edge, or fail with the missing-dependency
error the source formats. -/
def addEdgesFor (g : Graph String) (m : List (TypeKey × String)) (assembly_name : String) :
    List TypeKey → Result (Graph String)
  | [] => .ok g
  | required :: rest =>
    match lookupKey m required with
    | some required_assembly =>
      addEdgesFor (g.add_edge assembly_name required_assembly) m assembly_name rest
    | none =>
      .error (.MissingDependency assembly_name
        ("Required assembly not found for service: " ++ required))

/-- The outer loop of the edge pass of assemble(). -/
def addAllEdges (m : List (TypeKey × String)) :
    List ServiceAssembly → Graph String → Result (Graph String)
  | [], g => .ok g
  | a :: rest, g =>
    match addEdgesFor g m a.name a.requires with
    | .ok g' => addAllEdges m rest g'
    | .error e => .error e

/-- Graph construction inside assemble(): vertex pass then edge pass. -/
def buildFull (assemblies : List ServiceAssembly) : Result (Graph String) :=
  addAllEdges (mappedAssemblies assemblies) assemblies (buildVerts assemblies)

/-- Rendering of the cycle path as Rust Debug-formats a Vec of Strings. -/
def renderPath (path : List String) : String :=
  "[" ++ String.intercalate ", " (path.map (fun s => "\x22" ++ s ++ "\x22")) ++ "]"

/-- The cycle_info string assemble() builds from the sort result. -/
def cycleInfo (path : List String) : String :=
  if path.isEmpty then "unknown cycle" else "Cycle path: " ++ renderPath path

/-- One forward phase: invoke the given hook on each assembly in order,
aborting on the first error; returns the invocation trace and the error if
any. -/
def runPhase (hook : ServiceAssembly → Result Unit) (ev : String → LifecycleEvent) :
    List ServiceAssembly → List LifecycleEvent × Option AssemblyError
  | [] => ([], none)
  | a :: rest =>
    match hook a with
    | .ok _ =>
      let t := runPhase hook ev rest
      (ev a.name :: t.1, t.2)
    | .error e => ([ev a.name], some e)

/-- Assembler::assemble on the stored assembly list: build the graph, fail
on a missing provider or a cycle, otherwise run init, prepare and start in
the reversed (dependencies-first) sorted order and return the reordered
list that replaces the stored one.  The second component is the trace of
hook invocations. -/
def Assembler.assemble (assemblies : List ServiceAssembly) :
    Result (List ServiceAssembly) × List LifecycleEvent :=
  match buildFull assemblies with
  | .error e => (.error e, [])
  | .ok assembly_graph =>
    let sort_result := assembly_graph.topological_sort
    if sort_result.has_cycle then
      (.error (.CyclicDependency (cycleInfo sort_result.cycle_path)), [])
    else
      let ordered_assemblies := sort_result.sorted_order.reverse.filterMap
        (fun n => assemblies.find? (fun a => a.name == n))
      let initT := runPhase (·.init) LifecycleEvent.init ordered_assemblies
      match initT.2 with
      | some e => (.error e, initT.1)
      | none =>
        let prepT := runPhase (·.prepare) LifecycleEvent.prepare ordered_assemblies
        match prepT.2 with
        | some e => (.error e, initT.1 ++ prepT.1)
        | none =>
          let startT := runPhase (·.start) LifecycleEvent.start ordered_assemblies
          match startT.2 with
          | some e => (.error e, initT.1 ++ prepT.1 ++ startT.1)
          | none => (.ok ordered_assemblies, initT.1 ++ prepT.1 ++ startT.1)

/-- Formatting of one collected finalize failure. -/
def fmtFinalizeFailure (a : ServiceAssembly) (e : AssemblyError) : String :=
  "Finalize: \x27" ++ a.name ++ "\x27: " ++ e.display

/-- Formatting of one collected shutdown failure. -/
def fmtShutdownFailure (a : ServiceAssembly) (e : AssemblyError) : String :=
  "Shutdown: " ++ a.name ++ ": " ++ e.display

/-- One teardown sub-phase: invoke the hook on every assembly of the given
list regardless of failures, collecting formatted error messages in
iteration order together with the invocation trace. -/
def runTeardown (hook : ServiceAssembly → Result Unit)
    (fmt : ServiceAssembly → AssemblyError → String) (ev : String → LifecycleEvent) :
    List ServiceAssembly → List String × List LifecycleEvent
  | [] => ([], [])
  | a :: rest =>
    let t := runTeardown hook fmt ev rest
    match hook a with
    | .ok _ => (t.1, ev a.name :: t.2)
    | .error e => (fmt a e :: t.1, ev a.name :: t.2)

/-- Assembler::shutdown on the stored assembly list: finalize every assembly
in reverse order, then shut every assembly down in reverse order, never
halting on failures, and aggregate any collected errors. -/
def Assembler.shutdown (assemblies : List ServiceAssembly) :
    Result Unit × List LifecycleEvent :=
  let finT := runTeardown (·.finalize) fmtFinalizeFailure LifecycleEvent.finalize
    assemblies.reverse
  let shutT := runTeardown (·.shutdown) fmtShutdownFailure LifecycleEvent.shutdown
    assemblies.reverse
  let errors := finT.1 ++ shutT.1
  (if errors.isEmpty then .ok ()
   else .error (.GeneralError ("Errors shutting down:\n " ++ String.intercalate "\n" errors)),
   finT.2 ++ shutT.2)

/-! ### Specification-side notions used by the theorems -/

/-- The edge relation of a graph: some vertex with id u lists v among its
outgoing edges. -/
def EdgeRel {T : Type} (g : Graph T) (u v : String) : Prop :=
  ∃ w ∈ g.vertices, w.id = u ∧ v ∈ w.edges

instance {T : Type} [DecidableEq T] (g : Graph T) (u v : String) :
    Decidable (EdgeRel g u v) := by
  unfold EdgeRel
  infer_instance

/-- A graph is acyclic when no vertex reaches itself through a nonempty
edge path. -/
def Acyclic {T : Type} (g : Graph T) : Prop :=
  ∀ x, ¬ Relation.TransGen (EdgeRel g) x x

/-- Well-formedness maintained by the builder API: unique vertex ids, edge
targets that exist, and duplicate-free edge lists. -/
structure WF {T : Type} (g : Graph T) : Prop where
  idsNodup : g.ids.Nodup
  targets : ∀ v ∈ g.vertices, ∀ e ∈ v.edges, e ∈ g.ids
  edgesNodup : ∀ v ∈ g.vertices, v.edges.Nodup

/-- a occurs strictly before b in the list. -/
def Before (l : List String) (a b : String) : Prop :=
  ∃ i j : Nat, i < j ∧ l[i]? = some a ∧ l[j]? = some b

/-- The dependency relation induced directly by the requires/provides
declarations of a registered set: u requires a capability whose provider
(per the last-provider-wins map) is v. -/
def DepRel (assemblies : List ServiceAssembly) (u v : String) : Prop :=
  ∃ a ∈ assemblies, a.name = u ∧
    ∃ k ∈ a.requires, lookupKey (mappedAssemblies assemblies) k = some v

instance (assemblies : List ServiceAssembly) (u v : String) :
    Decidable (DepRel assemblies u v) := by
  unfold DepRel
  infer_instance

/-- Every requirement of every registered assembly has a registered
provider. -/
def NoMissing (assemblies : List ServiceAssembly) : Prop :=
  ∀ a ∈ assemblies, ∀ k ∈ a.requires, ∃ p ∈ assemblies, k ∈ p.provides

instance (assemblies : List ServiceAssembly) : Decidable (NoMissing assemblies) := by
  unfold NoMissing
  infer_instance

/-! ### Basic lemmas about Before -/

theorem Before.append {l l' : List String} {a b : String} (h : Before l a b) :
    Before (l ++ l') a b := by
  obtain ⟨i, j, hij, ha, hb⟩ := h
  have hj : j < l.length := (List.getElem?_eq_some.mp hb).1
  exact ⟨i, j, hij, by rw [List.getElem?_append_left (Nat.lt_trans hij hj), ha],
    by rw [List.getElem?_append_left hj, hb]⟩

theorem Before.of_mem_append {l : List String} {a b : String} (h : a ∈ l) :
    Before (l ++ [b]) a b := by
  obtain ⟨i, hi, hget⟩ := List.getElem_of_mem h
  refine ⟨i, l.length, hi, ?_, ?_⟩
  · rw [List.getElem?_append_left hi]
    exact List.getElem?_eq_getElem hi ▸ congrArg some hget
  · simp

theorem getElem?_inj_of_nodup {l : List String} {i j : Nat} {a : String}
    (hn : l.Nodup) (hi : l[i]? = some a) (hj : l[j]? = some a) : i = j := by
  have hi' : i < l.length := (List.getElem?_eq_some.mp hi).1
  exact List.getElem?_inj hi' hn (by rw [hi, hj])

theorem Before.trans {l : List String} {a b c : String} (hn : l.Nodup)
    (h1 : Before l a b) (h2 : Before l b c) : Before l a c := by
  obtain ⟨i, j, hij, ha, hb⟩ := h1
  obtain ⟨j', k, hjk, hb', hc⟩ := h2
  have : j = j' := getElem?_inj_of_nodup hn hb hb'
  exact ⟨i, k, Nat.lt_trans hij (this ▸ hjk), ha, hc⟩

theorem Before.irrefl {l : List String} {a : String} (hn : l.Nodup) :
    ¬ Before l a a := by
  rintro ⟨i, j, hij, ha, ha'⟩
  exact Nat.lt_irrefl i (getElem?_inj_of_nodup hn ha ha' ▸ hij)

/-! ### Lemmas about the graph builder API -/

theorem containsId_iff {T : Type} (g : Graph T) (x : String) :
    g.containsId x = true ↔ x ∈ g.ids := by
  unfold Graph.containsId Graph.ids
  rw [List.any_eq_true]
  constructor
  · rintro ⟨v, hv, he⟩
    exact (beq_iff_eq.mp he) ▸ List.mem_map_of_mem _ hv
  · intro hx
    obtain ⟨v, hv, he⟩ := List.mem_map.mp hx
    exact ⟨v, hv, beq_iff_eq.mpr he⟩

theorem findVertex_some {T : Type} {g : Graph T} {x : String} {w : Vertex T}
    (h : g.findVertex x = some w) : w ∈ g.vertices ∧ w.id = x := by
  refine ⟨List.mem_of_find?_eq_some h, ?_⟩
  have := List.find?_some h
  simpa using this

theorem find?_id_eq_some_of_nodup {T : Type} {L : List (Vertex T)} {w : Vertex T}
    (hn : (L.map (·.id)).Nodup) (hw : w ∈ L) :
    L.find? (fun v => v.id == w.id) = some w := by
  induction L with
  | nil => cases hw
  | cons a rest ih =>
    rw [List.map_cons, List.nodup_cons] at hn
    rcases List.mem_cons.mp hw with h | h
    · subst h
      exact List.find?_cons_of_pos _ (beq_self_eq_true _)
    · have hne : a.id ≠ w.id := by
        intro he
        exact hn.1 (he ▸ List.mem_map_of_mem (·.id) h)
      rw [List.find?_cons_of_neg _ (by simpa using hne)]
      exact ih hn.2 h

theorem findVertex_eq_some_of_nodup {T : Type} {g : Graph T} {w : Vertex T}
    (hn : g.ids.Nodup) (hw : w ∈ g.vertices) : g.findVertex w.id = some w :=
  find?_id_eq_some_of_nodup hn hw

theorem edgesOf_eq_of_nodup {T : Type} {g : Graph T} {w : Vertex T}
    (hn : g.ids.Nodup) (hw : w ∈ g.vertices) : g.edgesOf w.id = w.edges := by
  simp [Graph.edgesOf, findVertex_eq_some_of_nodup hn hw]

theorem edgeRel_of_edgesOf {T : Type} {g : Graph T} {x n : String}
    (h : n ∈ g.edgesOf x) : EdgeRel g x n := by
  unfold Graph.edgesOf at h
  cases hf : g.findVertex x with
  | none => rw [hf] at h; cases h
  | some w =>
    rw [hf] at h
    obtain ⟨hm, hid⟩ := findVertex_some hf
    exact ⟨w, hm, hid, h⟩

theorem edgeRel_src_mem {T : Type} {g : Graph T} {x v : String} (h : EdgeRel g x v) :
    x ∈ g.ids := by
  obtain ⟨w, hw, hid, _⟩ := h
  exact hid ▸ List.mem_map_of_mem _ hw

theorem edgeRel_tgt_mem {T : Type} {g : Graph T} (hwf : WF g) {x v : String}
    (h : EdgeRel g x v) : v ∈ g.ids := by
  obtain ⟨w, hw, _, hv⟩ := h
  exact hwf.targets w hw v hv

theorem count_pos_of_edgeRel {T : Type} {g : Graph T} (hn : g.ids.Nodup) {x v : String}
    (h : EdgeRel g x v) : 1 ≤ (g.edgesOf x).count v := by
  obtain ⟨w, hw, hid, hv⟩ := h
  rw [← hid, edgesOf_eq_of_nodup hn hw]
  exact List.one_le_count_iff.mpr hv

/-! ### The remaining-in-degree counter -/

/-- In-degree of v restricted to edges whose source has not been popped:
the value of the in-degree counter after the Kahn loop processed the popped
vertices. -/
def countRemaining {T : Type} (g : Graph T) (popped : List String) (v : String) : Nat :=
  (g.vertices.map (fun w => if w.id ∈ popped then 0 else w.edges.count v)).sum

theorem countRemaining_nil {T : Type} (g : Graph T) (v : String) :
    countRemaining g [] v = inDegree g v := by
  simp [countRemaining, inDegree]

theorem countRemaining_ge {T : Type} {g : Graph T} {w : Vertex T} {popped : List String}
    (hw : w ∈ g.vertices) (hnp : w.id ∉ popped) (v : String) :
    w.edges.count v ≤ countRemaining g popped v := by
  refine List.single_le_sum (fun x _ => Nat.zero_le x) _ ?_
  have : (if w.id ∈ popped then 0 else w.edges.count v) = w.edges.count v := if_neg hnp
  exact this ▸ List.mem_map_of_mem _ hw

theorem sum_pop_aux {T : Type} {L : List (Vertex T)} {w : Vertex T} {popped : List String}
    (hn : (L.map (·.id)).Nodup) (hw : w ∈ L) (hnp : w.id ∉ popped) (v : String) :
    (L.map (fun u => if u.id ∈ popped ++ [w.id] then 0 else u.edges.count v)).sum
      + w.edges.count v
      = (L.map (fun u => if u.id ∈ popped then 0 else u.edges.count v)).sum := by
  induction L with
  | nil => cases hw
  | cons a rest ih =>
    rw [List.map_cons, List.nodup_cons] at hn
    rw [List.map_cons, List.map_cons, List.sum_cons, List.sum_cons]
    rcases List.mem_cons.mp hw with h | h
    · subst h
      have h1 : (if w.id ∈ popped ++ [w.id] then 0 else w.edges.count v) = 0 := by simp
      have h2 : (if w.id ∈ popped then 0 else w.edges.count v) = w.edges.count v := if_neg hnp
      rw [h1, h2]
      have hrest : ∀ u ∈ rest, (if u.id ∈ popped ++ [w.id] then 0 else u.edges.count v)
          = (if u.id ∈ popped then 0 else u.edges.count v) := by
        intro u hu
        have hne : u.id ≠ w.id := by
          intro he
          exact hn.1 (he ▸ List.mem_map_of_mem (·.id) hu)
        simp [List.mem_append, hne]
      rw [List.map_congr_left hrest]
      omega
    · have hane : a.id ≠ w.id := by
        intro he
        exact hn.1 (he ▸ List.mem_map_of_mem (·.id) h)
      have ha : (if a.id ∈ popped ++ [w.id] then 0 else a.edges.count v)
          = (if a.id ∈ popped then 0 else a.edges.count v) := by
        simp [List.mem_append, hane]
      rw [ha]
      have := ih hn.2 h
      omega

theorem countRemaining_pop {T : Type} {g : Graph T} {w : Vertex T} {popped : List String}
    (hn : g.ids.Nodup) (hw : w ∈ g.vertices) (hnp : w.id ∉ popped) (v : String) :
    countRemaining g (popped ++ [w.id]) v + w.edges.count v = countRemaining g popped v :=
  sum_pop_aux hn hw hnp v

theorem inDegree_pos_of_edgeRel {T : Type} {g : Graph T} {x v : String}
    (h : EdgeRel g x v) : 1 ≤ inDegree g v := by
  obtain ⟨w, hw, _, hv⟩ := h
  calc 1 ≤ w.edges.count v := List.one_le_count_iff.mpr hv
    _ ≤ inDegree g v := by
        exact List.single_le_sum (fun x _ => Nat.zero_le x) _ (List.mem_map_of_mem _ hw)

/-! ### Invariants of the Kahn worklist loop -/

theorem nodup_append_singleton {l : List String} {a : String} (hn : l.Nodup) (ha : a ∉ l) :
    (l ++ [a]).Nodup := by
  rw [List.nodup_append]
  exact ⟨hn, List.nodup_singleton a, by simpa [List.disjoint_singleton] using ha⟩

/-- State invariant of the Kahn loop: ord is the output so far, queue the
worklist, deg the in-degree counter map. -/
structure KInv {T : Type} (g : Graph T) (queue : List String) (deg : String → Nat)
    (ord : List String) : Prop where
  sub : ∀ x ∈ ord ++ queue, x ∈ g.ids
  nodup : (ord ++ queue).Nodup
  degEq : ∀ v, deg v = countRemaining g ord v
  zeroIn : ∀ v ∈ g.ids, deg v = 0 → v ∈ ord ++ queue
  ebefore : ∀ x v, EdgeRel g x v → v ∈ ord ++ queue →
    x ∈ ord ∧ Before (ord ++ queue) x v

theorem processEdges_spec {T : Type} {g : Graph T} (hwf : WF g) (w : Vertex T)
    (hw : w ∈ g.vertices) (oldOrd : List String) (hwo : w.id ∉ oldOrd) :
    ∀ (s p : List String) (deg : String → Nat) (queue : List String),
    w.edges = p ++ s →
    (p ++ s).Nodup →
    (∀ v, deg v + p.count v = countRemaining g oldOrd v) →
    (∀ x ∈ (oldOrd ++ [w.id]) ++ queue, x ∈ g.ids) →
    ((oldOrd ++ [w.id]) ++ queue).Nodup →
    (∀ v ∈ g.ids, deg v = 0 → v ∈ (oldOrd ++ [w.id]) ++ queue) →
    (∀ x v, EdgeRel g x v → v ∈ (oldOrd ++ [w.id]) ++ queue →
      x ∈ oldOrd ++ [w.id] ∧ Before ((oldOrd ++ [w.id]) ++ queue) x v) →
    (∀ e ∈ s, e ∉ (oldOrd ++ [w.id]) ++ queue) →
    KInv g (processEdges deg queue s).2 (processEdges deg queue s).1 (oldOrd ++ [w.id]) := by
  intro s
  induction s with
  | nil =>
    intro p deg queue hpe hpn hdeg hsub hnodup hzero hbef _
    rw [List.append_nil] at hpe
    subst hpe
    refine ⟨hsub, hnodup, ?_, hzero, hbef⟩
    intro v
    have hpop := countRemaining_pop hwf.idsNodup hw hwo v
    have := hdeg v
    simp only [processEdges]
    omega
  | cons e es ih =>
    intro p deg queue hpe hpn hdeg hsub hnodup hzero hbef hnotin
    have hge : w.edges.count e ≤ countRemaining g oldOrd e :=
      countRemaining_ge hw hwo e
    have hce : w.edges.count e = p.count e + (e :: es).count e := by
      rw [hpe, List.count_append]
    have hdege : deg e + p.count e = countRemaining g oldOrd e := hdeg e
    have hdeg_pos : 1 ≤ deg e := by
      have : 1 ≤ (e :: es).count e := by simp [List.count_cons_self]
      omega
    have hdeg' : ∀ v, (fun x => if x = e then deg e - 1 else deg x) v
        + (p ++ [e]).count v = countRemaining g oldOrd v := by
      intro v
      by_cases hv : v = e
      · subst hv
        rw [show (fun x => if x = v then deg v - 1 else deg x) v = deg v - 1 from if_pos rfl,
          List.count_append]
        have hone : List.count v [v] = 1 := by simp
        rw [hone]
        have := hdeg v
        omega
      · rw [show (fun x => if x = e then deg e - 1 else deg x) v = deg v from if_neg hv,
          List.count_append]
        have hzeroc : List.count v [e] = 0 := by
          simp [List.count_singleton]
          exact fun h => absurd h.symm hv
        rw [hzeroc]
        have := hdeg v
        omega
    have hpe' : w.edges = (p ++ [e]) ++ es := by rw [hpe]; simp
    have hpn' : ((p ++ [e]) ++ es).Nodup := by simpa using hpn
    have he_ids : e ∈ g.ids := hwf.targets w hw e (by rw [hpe]; simp)
    have he_notin := hnotin e (by simp)
    have hes_ne : ∀ e' ∈ es, e' ≠ e := by
      intro e' he'
      have hcd : (e :: es).Nodup := (List.nodup_append.mp hpn).2.1
      intro hee
      exact (List.nodup_cons.mp hcd).1 (hee ▸ he')
    by_cases hd : deg e - 1 = 0
    · -- target reaches zero: enqueue it
      have hstep : processEdges deg queue (e :: es)
          = processEdges (fun x => if x = e then deg e - 1 else deg x) (queue ++ [e]) es := by
        show (if deg e - 1 = 0 then
            processEdges (fun x => if x = e then deg e - 1 else deg x) (queue ++ [e]) es
          else processEdges (fun x => if x = e then deg e - 1 else deg x) queue es) = _
        rw [if_pos hd]
      rw [hstep]
      have hL' : (oldOrd ++ [w.id]) ++ (queue ++ [e]) = ((oldOrd ++ [w.id]) ++ queue) ++ [e] := by
        simp
      -- the remaining in-degree of e with w popped is zero
      have hcr0 : countRemaining g (oldOrd ++ [w.id]) e = 0 := by
        have hpop := countRemaining_pop hwf.idsNodup hw hwo e
        have h1 : deg e = 1 := by omega
        have h2 : (e :: es).count e = 1 + es.count e := by
          simp [List.count_cons_self]
          omega
        omega
      refine ih (p ++ [e]) _ (queue ++ [e]) hpe' hpn' hdeg' ?_ ?_ ?_ ?_ ?_
      · intro x hx
        rw [hL'] at hx
        rcases List.mem_append.mp hx with hx | hx
        · exact hsub x hx
        · rw [List.mem_singleton.mp hx]; exact he_ids
      · rw [hL']
        exact nodup_append_singleton hnodup he_notin
      · intro v hv hv0
        rw [hL']
        by_cases hve : v = e
        · subst hve; simp
        · rw [if_neg hve] at hv0
          exact List.mem_append_left _ (hzero v hv hv0)
      · intro x v hxv hv
        rw [hL'] at hv ⊢
        rcases List.mem_append.mp hv with hv | hv
        · obtain ⟨hx, hb⟩ := hbef x v hxv hv
          exact ⟨hx, hb.append⟩
        · rw [List.mem_singleton.mp hv] at hxv ⊢
          have hx_in : x ∈ oldOrd ++ [w.id] := by
            by_contra hx_out
            obtain ⟨wx, hwx, hwxid, hwxe⟩ := hxv
            have : wx.edges.count e ≤ countRemaining g (oldOrd ++ [w.id]) e :=
              countRemaining_ge hwx (hwxid ▸ hx_out) e
            have : 1 ≤ countRemaining g (oldOrd ++ [w.id]) e :=
              le_trans (List.one_le_count_iff.mpr hwxe) this
            omega
          exact ⟨hx_in, Before.of_mem_append (List.mem_append_left _ hx_in)⟩
      · intro e' he'
        rw [hL']
        intro hmem
        rcases List.mem_append.mp hmem with hmem | hmem
        · exact hnotin e' (List.mem_cons_of_mem _ he') hmem
        · exact hes_ne e' he' (List.mem_singleton.mp hmem)
    · -- target still has positive in-degree
      have hstep : processEdges deg queue (e :: es)
          = processEdges (fun x => if x = e then deg e - 1 else deg x) queue es := by
        show (if deg e - 1 = 0 then
            processEdges (fun x => if x = e then deg e - 1 else deg x) (queue ++ [e]) es
          else processEdges (fun x => if x = e then deg e - 1 else deg x) queue es) = _
        rw [if_neg hd]
      rw [hstep]
      refine ih (p ++ [e]) _ queue hpe' hpn' hdeg' hsub hnodup ?_ hbef ?_
      · intro v hv hv0
        by_cases hve : v = e
        · subst hve; rw [if_pos rfl] at hv0; exact absurd hv0 hd
        · rw [if_neg hve] at hv0
          exact hzero v hv hv0
      · intro e' he'
        exact hnotin e' (List.mem_cons_of_mem _ he')

theorem length_le_of_nodup_subset {l l' : List String} (hn : l.Nodup) (hs : l ⊆ l') :
    l.length ≤ l'.length :=
  (List.subperm_of_subset hn hs).length_le

theorem kahnLoop_spec {T : Type} {g : Graph T} (hwf : WF g) :
    ∀ (fuel : Nat) (queue : List String) (deg : String → Nat) (ord : List String),
    KInv g queue deg ord → g.ids.length ≤ fuel + ord.length →
    ∃ degF, KInv g [] degF (kahnLoop g fuel queue deg ord) := by
  intro fuel
  induction fuel with
  | zero =>
    intro queue deg ord hK hfuel
    have hlen : ord.length + queue.length ≤ g.ids.length := by
      have := length_le_of_nodup_subset hK.nodup (fun x hx => hK.sub x hx)
      simpa using this
    have hq : queue = [] := by
      have : queue.length = 0 := by omega
      exact List.eq_nil_of_length_eq_zero this
    subst hq
    exact ⟨deg, by simpa [kahnLoop] using hK⟩
  | succ f ih =>
    intro queue deg ord hK hfuel
    match queue with
    | [] => exact ⟨deg, by simpa [kahnLoop] using hK⟩
    | u :: rest =>
      have hu_ids : u ∈ g.ids := hK.sub u (by simp)
      obtain ⟨w, hw, hwid⟩ := List.mem_map.mp hu_ids
      subst hwid
      have hord : w.id ∉ ord := by
        have hn := hK.nodup
        rw [List.nodup_append] at hn
        exact fun hmem => hn.2.2 hmem (by simp)
      have hedges : g.edgesOf w.id = w.edges := edgesOf_eq_of_nodup hwf.idsNodup hw
      have hrw : ord ++ w.id :: rest = (ord ++ [w.id]) ++ rest := by simp
      have hnotin : ∀ e ∈ w.edges, e ∉ (ord ++ [w.id]) ++ rest := by
        intro e he hmem
        have hrel : EdgeRel g w.id e := ⟨w, hw, rfl, he⟩
        have := (hK.ebefore w.id e hrel (hrw ▸ hmem)).1
        exact hord this
      have hKnext : KInv g (processEdges deg rest (g.edgesOf w.id)).2
          (processEdges deg rest (g.edgesOf w.id)).1 (ord ++ [w.id]) := by
        rw [hedges]
        refine processEdges_spec hwf w hw ord hord w.edges [] deg rest (by simp)
          (by simpa using hwf.edgesNodup w hw) ?_ ?_ ?_ ?_ ?_ ?_
        · intro v
          simpa using hK.degEq v
        · intro x hx
          exact hK.sub x (hrw ▸ hx)
        · exact hrw ▸ hK.nodup
        · intro v hv hv0
          exact hrw ▸ hK.zeroIn v hv hv0
        · intro x v hxv hv
          obtain ⟨hx, hb⟩ := hK.ebefore x v hxv (hrw.symm ▸ hv)
          exact ⟨List.mem_append_left _ hx, hrw ▸ hb⟩
        · exact hnotin
      have hstep : kahnLoop g (f + 1) (w.id :: rest) deg ord
          = kahnLoop g f (processEdges deg rest (g.edgesOf w.id)).2
            (processEdges deg rest (g.edgesOf w.id)).1 (ord ++ [w.id]) := by
        simp [kahnLoop]
      rw [hstep]
      exact ih _ _ _ hKnext (by simp; omega)

/-! ### Soundness of the DFS cycle detection

A reported back-edge always corresponds to a genuine directed cycle,
whatever the fuel: every VISITING vertex lies on the current DFS stack and
hence reaches the vertex being expanded. -/

theorem dfs_sound {T : Type} (g : Graph T) : ∀ fuel : Nat,
    (∀ vid (vs : String → Nat) par,
      vs vid = UNVISITED →
      (∀ x, vs x = VISITING → Relation.TransGen (EdgeRel g) x vid) →
      ((detect_cycle g fuel vid vs par).found = true →
        ∃ z, Relation.TransGen (EdgeRel g) z z) ∧
      ((detect_cycle g fuel vid vs par).found = false →
        ∀ x, ((detect_cycle g fuel vid vs par).state x = VISITING ↔ vs x = VISITING)))
    ∧
    (∀ vid ns (vs : String → Nat) par,
      vs vid = VISITING →
      (∀ n ∈ ns, EdgeRel g vid n) →
      (∀ x, vs x = VISITING → x = vid ∨ Relation.TransGen (EdgeRel g) x vid) →
      ((dfsNeighbors g fuel vid ns vs par).found = true →
        ∃ z, Relation.TransGen (EdgeRel g) z z) ∧
      ((dfsNeighbors g fuel vid ns vs par).found = false →
        ∀ x, ((dfsNeighbors g fuel vid ns vs par).state x = VISITING ↔ vs x = VISITING))) := by
  intro fuel
  induction fuel with
  | zero =>
    constructor
    · intro vid vs par _ _
      exact ⟨fun h => by simp [detect_cycle] at h, fun _ x => by simp [detect_cycle]⟩
    · intro vid ns vs par _ _ _
      exact ⟨fun h => by simp [dfsNeighbors] at h, fun _ x => by simp [dfsNeighbors]⟩
  | succ f ih =>
    obtain ⟨ihd, ihn⟩ := ih
    constructor
    · -- detect_cycle at f + 1
      intro vid vs par hunv hanc
      have hvs1 : (setState vs vid VISITING) vid = VISITING := by simp [setState]
      have hns : ∀ n ∈ g.edgesOf vid, EdgeRel g vid n := fun n hn => edgeRel_of_edgesOf hn
      have hanc1 : ∀ x, (setState vs vid VISITING) x = VISITING →
          x = vid ∨ Relation.TransGen (EdgeRel g) x vid := by
        intro x hx
        by_cases hxv : x = vid
        · exact Or.inl hxv
        · right
          exact hanc x (by simpa [setState, hxv] using hx)
      have hsub := ihn vid (g.edgesOf vid) (setState vs vid VISITING) par hvs1 hns hanc1
      set out := dfsNeighbors g f vid (g.edgesOf vid) (setState vs vid VISITING) par with hout
      have hunfold : detect_cycle g (f + 1) vid vs par
          = if out.found then out
            else { out with found := false, path := [], state := setState out.state vid VISITED } := by
        simp [detect_cycle, hout]
      by_cases hfound : out.found = true
      · rw [hunfold, if_pos hfound]
        exact ⟨fun _ => hsub.1 hfound, fun hff => absurd (hff ▸ hfound) (by simp [hff])⟩
      · rw [hunfold, if_neg hfound]
        have hff : out.found = false := by simpa using hfound
        refine ⟨fun h => by simp at h, fun _ x => ?_⟩
        by_cases hxv : x = vid
        · subst hxv
          simp only [setState, if_pos rfl]
          constructor
          · intro h; exact absurd h (by simp [VISITED, VISITING])
          · intro h; exact absurd (hunv ▸ h) (by simp [UNVISITED, VISITING])
        · simp only [setState, if_neg hxv]
          rw [hsub.2 hff x]
          simp [setState, hxv]
    · -- dfsNeighbors at f + 1
      intro vid ns vs par hvis hns hanc
      match ns with
      | [] =>
        exact ⟨fun h => by simp [dfsNeighbors] at h, fun _ x => by simp [dfsNeighbors]⟩
      | n :: rest =>
        by_cases h1 : vs n = VISITING
        · have hunfold : dfsNeighbors g (f + 1) vid (n :: rest) vs par
              = ⟨true, buildCycle (g.vertices.length + 1) par vid n, vs, par⟩ := by
            simp [dfsNeighbors, h1]
          rw [hunfold]
          refine ⟨fun _ => ?_, fun hff => by simp at hff⟩
          rcases hanc n h1 with he | he
          · exact ⟨vid, Relation.TransGen.single (he ▸ hns n (by simp))⟩
          · exact ⟨n, he.tail (hns n (by simp))⟩
        · by_cases h2 : vs n = UNVISITED
          · set out := detect_cycle g f n vs (setParent par n vid) with hout
            have hsubd := ihd n vs (setParent par n vid) h2 (fun x hx => by
              rcases hanc x hx with he | he
              · exact Relation.TransGen.single (he ▸ hns n (by simp))
              · exact he.tail (hns n (by simp)))
            have hunfold : dfsNeighbors g (f + 1) vid (n :: rest) vs par
                = if out.found then out
                  else dfsNeighbors g f vid rest out.state out.parent := by
              simp [dfsNeighbors, h1, h2, hout, UNVISITED, VISITING]
            by_cases hfound : out.found = true
            · rw [hunfold, if_pos hfound]
              exact ⟨fun _ => hsubd.1 hfound,
                fun hff => absurd (hff ▸ hfound) (by simp [hff])⟩
            · have hff : out.found = false := by simpa using hfound
              rw [hunfold, if_neg hfound]
              have hiff := hsubd.2 hff
              have hsubn := ihn vid rest out.state out.parent
                ((hiff vid).mpr hvis)
                (fun m hm => hns m (by simp [hm]))
                (fun x hx => hanc x ((hiff x).mp hx))
              refine ⟨hsubn.1, fun hff2 x => ?_⟩
              rw [hsubn.2 hff2 x, hiff x]
          · have hunfold : dfsNeighbors g (f + 1) vid (n :: rest) vs par
                = dfsNeighbors g f vid rest vs par := by
              simp [dfsNeighbors, h1, h2]
            rw [hunfold]
            exact ihn vid rest vs par hvis (fun m hm => hns m (by simp [hm])) hanc

/-- Soundness of the outer DFS loop: a true answer implies a real cycle. -/
theorem dcwpLoop_sound {T : Type} (g : Graph T) : ∀ (l : List String) (vs : String → Nat) par,
    (∀ x, vs x ≠ VISITING) →
    (dcwpLoop g l vs par).1 = true → ∃ z, Relation.TransGen (EdgeRel g) z z := by
  intro l
  induction l with
  | nil => intro vs par _ h; simp [dcwpLoop] at h
  | cons id rest ih =>
    intro vs par hno h
    by_cases hu : vs id = UNVISITED
    · set out := detect_cycle g (dfsFuel g) id vs par with hout
      have hsub := (dfs_sound g (dfsFuel g)).1 id vs par hu
        (fun x hx => absurd hx (hno x))
      have hunfold : dcwpLoop g (id :: rest) vs par
          = if out.found then (true, out.path)
            else dcwpLoop g rest out.state out.parent := by
        simp [dcwpLoop, hu, hout]
      rw [hunfold] at h
      by_cases hfound : out.found = true
      · exact hsub.1 hfound
      · have hff : out.found = false := by simpa using hfound
        rw [if_neg hfound] at h
        refine ih out.state out.parent (fun x hx => ?_) h
        exact hno x ((hsub.2 hff x).mp hx)
    · have hunfold : dcwpLoop g (id :: rest) vs par = dcwpLoop g rest vs par := by
        simp [dcwpLoop, hu]
      rw [hunfold] at h
      exact ih vs par hno h

/-- DFS never reports a cycle on an acyclic graph. -/
theorem detect_cycle_with_path_false_of_acyclic {T : Type} {g : Graph T} (hacyc : Acyclic g) :
    (g.detect_cycle_with_path).1 = false := by
  by_contra h
  have h' : (g.detect_cycle_with_path).1 = true := by
    cases hb : (g.detect_cycle_with_path).1
    · exact absurd hb h
    · rfl
  obtain ⟨z, hz⟩ := dcwpLoop_sound g g.ids (fun _ => UNVISITED) (fun _ => none)
    (fun x => by simp [UNVISITED, VISITING]) h'
  exact hacyc z hz

/-! ### Behaviour of topological_sort -/

/-- The order produced by the Kahn phase when started from the initial
state of topological_sort. -/
def kahnOrd {T : Type} (g : Graph T) : List String :=
  kahnLoop g g.vertices.length (g.ids.filter (fun x => inDegree g x == 0))
    (fun x => inDegree g x) []

theorem topological_sort_eq {T : Type} (g : Graph T) :
    g.topological_sort =
      if (g.detect_cycle_with_path).1 then ⟨[], true, (g.detect_cycle_with_path).2⟩
      else if (kahnOrd g).length = g.vertices.length
        then ⟨kahnOrd g, false, (g.detect_cycle_with_path).2⟩
        else ⟨[], true, (g.detect_cycle_with_path).2⟩ := rfl

theorem initial_KInv {T : Type} {g : Graph T} (hwf : WF g) :
    KInv g (g.ids.filter (fun x => inDegree g x == 0)) (fun x => inDegree g x) [] := by
  refine ⟨?_, ?_, ?_, ?_, ?_⟩
  · intro x hx
    simp only [List.nil_append] at hx
    exact (List.mem_filter.mp hx).1
  · simp only [List.nil_append]
    exact hwf.idsNodup.filter _
  · intro v
    exact (countRemaining_nil g v).symm
  · intro v hv hv0
    simp only [List.nil_append]
    exact List.mem_filter.mpr ⟨hv, by simpa using hv0⟩
  · intro x v hxv hv
    simp only [List.nil_append] at hv
    have h0 : inDegree g v = 0 := by simpa using (List.mem_filter.mp hv).2
    have h1 := inDegree_pos_of_edgeRel hxv
    omega

theorem kahnOrd_final {T : Type} {g : Graph T} (hwf : WF g) :
    ∃ degF, KInv g [] degF (kahnOrd g) := by
  refine kahnLoop_spec hwf g.vertices.length _ _ [] (initial_KInv hwf) ?_
  simp [Graph.ids]

theorem kahn_complete {T : Type} {g : Graph T} (hwf : WF g) (hacyc : Acyclic g)
    {degF : String → Nat} {ordF : List String} (hK : KInv g [] degF ordF) :
    ∀ v ∈ g.ids, v ∈ ordF := by
  intro v0 hv0
  by_contra hvo
  set S : Set String := {x | x ∈ g.ids ∧ x ∉ ordF} with hS
  have hpred : ∀ v ∈ S, ∃ u ∈ S, EdgeRel g u v := by
    rintro v ⟨hvi, hvno⟩
    have hdeg : degF v ≠ 0 := by
      intro h0
      exact hvno (by simpa using hK.zeroIn v hvi h0)
    have hcr : countRemaining g ordF v ≠ 0 := by
      rw [← hK.degEq v]; exact hdeg
    have hterm : ∃ w ∈ g.vertices, (if w.id ∈ ordF then 0 else w.edges.count v) ≠ 0 := by
      by_contra hall
      push_neg at hall
      exact hcr (List.sum_eq_zero (by
        intro x hx
        obtain ⟨w, hw, he⟩ := List.mem_map.mp hx
        exact he ▸ hall w hw))
    obtain ⟨w, hw, hne⟩ := hterm
    have hwo : w.id ∉ ordF := by
      intro hmem
      exact hne (if_pos hmem)
    have hcnt : w.edges.count v ≠ 0 := by
      intro h0
      exact hne (by rw [if_neg hwo]; exact h0)
    exact ⟨w.id, ⟨List.mem_map_of_mem _ hw, hwo⟩,
      ⟨w, hw, rfl, List.count_pos_iff.mp (Nat.pos_of_ne_zero hcnt)⟩⟩
  have hSfin : S.Finite := (List.finite_toSet g.ids).subset (fun x hx => hx.1)
  haveI hfin : Finite ↥S := hSfin.to_subtype
  let r : ↥S → ↥S → Prop := fun a b => Relation.TransGen (EdgeRel g) a.1 b.1
  letI : IsTrans ↥S r := ⟨fun _ _ _ hab hbc => hab.trans hbc⟩
  letI : IsIrrefl ↥S r := ⟨fun a => hacyc a.1⟩
  have hwfr := Finite.wellFounded_of_trans_of_irrefl r
  obtain ⟨m, _, hmin⟩ := hwfr.has_min Set.univ ⟨⟨v0, hv0, hvo⟩, trivial⟩
  obtain ⟨u, huS, hue⟩ := hpred m.1 m.2
  exact hmin ⟨u, huS⟩ trivial (Relation.TransGen.single hue)

theorem tg_before {T : Type} {g : Graph T} {degF : String → Nat} {ordF : List String}
    (hK : KInv g [] degF ordF) : ∀ x y, Relation.TransGen (EdgeRel g) x y →
    y ∈ ordF → x ∈ ordF ∧ Before ordF x y := by
  have hnod : ordF.Nodup := by simpa using hK.nodup
  intro x y h
  induction h with
  | single hxy =>
    intro hy
    have := hK.ebefore x _ hxy (by simpa using hy)
    simpa using this
  | tail hab hbc ih =>
    intro hy
    have h2 := hK.ebefore _ _ hbc (by simpa using hy)
    simp only [List.append_nil] at h2
    obtain ⟨hb, hbef2⟩ := h2
    obtain ⟨hx, hbef1⟩ := ih hb
    exact ⟨hx, hbef1.trans hnod hbef2⟩

theorem kahn_cycle_notmem {T : Type} {g : Graph T} {degF : String → Nat} {ordF : List String}
    (hK : KInv g [] degF ordF) {z : String} (hz : Relation.TransGen (EdgeRel g) z z) :
    z ∉ ordF := by
  intro hmem
  have hnod : ordF.Nodup := by simpa using hK.nodup
  exact Before.irrefl hnod (tg_before hK z z hz hmem).2

theorem transGen_first {α : Type} {r : α → α → Prop} {a b : α}
    (h : Relation.TransGen r a b) : ∃ c, r a c := by
  induction h with
  | single hxy => exact ⟨_, hxy⟩
  | tail _ _ ih => exact ih

/-- On a well-formed acyclic graph, topological_sort reports no cycle, its
output enumerates the vertices, and every edge source is placed before its
target (dependents before their dependencies). -/
theorem topological_sort_acyclic {T : Type} {g : Graph T} (hwf : WF g) (hacyc : Acyclic g) :
    (g.topological_sort).has_cycle = false
    ∧ (g.topological_sort).sorted_order.Perm g.ids
    ∧ ∀ x v, EdgeRel g x v → Before (g.topological_sort).sorted_order x v := by
  obtain ⟨degF, hK⟩ := kahnOrd_final (g := g) hwf
  have hnod : (kahnOrd g).Nodup := by simpa using hK.nodup
  have hsub : ∀ x ∈ kahnOrd g, x ∈ g.ids := by
    intro x hx
    exact hK.sub x (by simpa using hx)
  have hcomp := kahn_complete hwf hacyc hK
  have hperm : (kahnOrd g).Perm g.ids :=
    (List.perm_ext_iff_of_nodup hnod hwf.idsNodup).mpr
      (fun a => ⟨fun h => hsub a h, fun h => hcomp a h⟩)
  have hlen : (kahnOrd g).length = g.vertices.length := by
    rw [hperm.length_eq]
    simp [Graph.ids]
  have hdfs : (g.detect_cycle_with_path).1 = false :=
    detect_cycle_with_path_false_of_acyclic hacyc
  rw [topological_sort_eq, hdfs]
  simp only [Bool.false_eq_true, if_false, hlen, if_pos rfl]
  refine ⟨rfl, hperm, ?_⟩
  intro x v hxv
  have hv : v ∈ kahnOrd g := hcomp v (edgeRel_tgt_mem hwf hxv)
  have := (hK.ebefore x v hxv (by simpa using hv)).2
  simpa using this

/-- On a well-formed graph containing a directed cycle, topological_sort
always reports a cycle (through the DFS or through the defensive count
check). -/
theorem topological_sort_cycle {T : Type} {g : Graph T} (hwf : WF g) {z : String}
    (hz : Relation.TransGen (EdgeRel g) z z) :
    (g.topological_sort).has_cycle = true := by
  rw [topological_sort_eq]
  by_cases hdfs : (g.detect_cycle_with_path).1
  · simp [hdfs]
  · obtain ⟨degF, hK⟩ := kahnOrd_final (g := g) hwf
    have hzno := kahn_cycle_notmem hK hz
    have hz_ids : z ∈ g.ids := by
      obtain ⟨c, hc⟩ := transGen_first hz
      exact edgeRel_src_mem hc
    have hnod : (kahnOrd g).Nodup := by simpa using hK.nodup
    have hsub : kahnOrd g ⊆ g.ids := fun x hx => hK.sub x (by simpa using hx)
    have hne : ¬ (kahnOrd g).length = g.vertices.length := by
      intro hlen
      have hsp : (kahnOrd g).Subperm g.ids := List.subperm_of_subset hnod hsub
      have hperm : (kahnOrd g).Perm g.ids := hsp.perm_of_length_le (by
        rw [hlen]
        simp [Graph.ids])
      exact hzno (hperm.mem_iff.mpr hz_ids)
    simp [hdfs, hne]

/-- Whenever topological_sort reports no cycle, its output is a permutation
of the vertex ids (the defensive count check passed). -/
theorem topological_sort_perm {T : Type} {g : Graph T} (hwf : WF g)
    (h : (g.topological_sort).has_cycle = false) :
    (g.topological_sort).sorted_order.Perm g.ids := by
  rw [topological_sort_eq] at h ⊢
  by_cases hdfs : (g.detect_cycle_with_path).1
  · rw [if_pos hdfs] at h
    simp at h
  · rw [if_neg hdfs] at h ⊢
    by_cases hlen : (kahnOrd g).length = g.vertices.length
    · rw [if_pos hlen]
      obtain ⟨degF, hK⟩ := kahnOrd_final (g := g) hwf
      have hnod : (kahnOrd g).Nodup := by simpa using hK.nodup
      have hsub : kahnOrd g ⊆ g.ids := fun x hx => hK.sub x (by simpa using hx)
      exact (List.subperm_of_subset hnod hsub).perm_of_length_le (by
        rw [hlen]
        simp [Graph.ids])
    · rw [if_neg hlen] at h
      simp at h

/-- Whenever topological_sort reports no cycle, every edge source appears
strictly before its target in the output. -/
theorem topological_sort_before {T : Type} {g : Graph T} (hwf : WF g)
    (h : (g.topological_sort).has_cycle = false) :
    ∀ x v, EdgeRel g x v → Before (g.topological_sort).sorted_order x v := by
  rw [topological_sort_eq] at h ⊢
  by_cases hdfs : (g.detect_cycle_with_path).1
  · rw [if_pos hdfs] at h
    simp at h
  · rw [if_neg hdfs] at h ⊢
    by_cases hlen : (kahnOrd g).length = g.vertices.length
    · rw [if_pos hlen]
      obtain ⟨degF, hK⟩ := kahnOrd_final (g := g) hwf
      intro x v hxv
      have hnod : (kahnOrd g).Nodup := by simpa using hK.nodup
      have hsub : kahnOrd g ⊆ g.ids := fun x hx => hK.sub x (by simpa using hx)
      have hperm : (kahnOrd g).Perm g.ids :=
        (List.subperm_of_subset hnod hsub).perm_of_length_le (by
          rw [hlen]
          simp [Graph.ids])
      have hv : v ∈ kahnOrd g := hperm.mem_iff.mpr (edgeRel_tgt_mem hwf hxv)
      have := (hK.ebefore x v hxv (by simpa using hv)).2
      simpa using this
    · rw [if_neg hlen] at h
      simp at h

/-! ### The builder API preserves well-formedness -/

theorem wf_new {T : Type} : WF (Graph.new : Graph T) :=
  ⟨List.nodup_nil, (by intro v hv; cases hv), (by intro v hv; cases hv)⟩

theorem mem_ids_add_vertex {T : Type} {g : Graph T} {id x : String} {val : T} :
    x ∈ (g.add_vertex id val).ids ↔ x ∈ g.ids ∨ x = id := by
  unfold Graph.add_vertex
  by_cases hc : g.containsId id = true
  · rw [if_pos hc]
    constructor
    · exact fun h => Or.inl h
    · rintro (h | h)
      · exact h
      · exact h ▸ (containsId_iff g id).mp hc
  · rw [if_neg hc]
    simp [Graph.ids]

theorem wf_add_vertex {T : Type} {g : Graph T} {id : String} {val : T} (hwf : WF g) :
    WF (g.add_vertex id val) := by
  unfold Graph.add_vertex
  by_cases hc : g.containsId id = true
  · rw [if_pos hc]; exact hwf
  · rw [if_neg hc]
    have hid : id ∉ g.ids := fun h => hc ((containsId_iff g id).mpr h)
    refine ⟨?_, ?_, ?_⟩
    · simpa [Graph.ids] using nodup_append_singleton hwf.idsNodup hid
    · intro v hv e he
      rcases List.mem_append.mp hv with hv | hv
      · have := hwf.targets v hv e he
        simp only [Graph.ids, List.map_append]
        exact List.mem_append_left _ this
      · rw [List.mem_singleton.mp hv] at he
        cases he
    · intro v hv
      rcases List.mem_append.mp hv with hv | hv
      · exact hwf.edgesNodup v hv
      · rw [List.mem_singleton.mp hv]
        exact List.nodup_nil

theorem ids_add_edge {T : Type} (g : Graph T) (a b : String) :
    (g.add_edge a b).ids = g.ids := by
  unfold Graph.add_edge
  by_cases hc : g.containsId a = true ∧ g.containsId b = true
  · rw [if_pos hc]
    simp only [Graph.ids, List.map_map]
    refine List.map_congr_left ?_
    intro v _
    by_cases hv : v.id = a ∧ ¬ b ∈ v.edges
    · simp [hv]
    · simp [hv]
  · rw [if_neg hc]

theorem edgeRel_add_edge_elim {T : Type} {g : Graph T} {a b x v : String}
    (h : EdgeRel (g.add_edge a b) x v) : EdgeRel g x v ∨ (x = a ∧ v = b) := by
  unfold Graph.add_edge at h
  by_cases hc : g.containsId a = true ∧ g.containsId b = true
  · rw [if_pos hc] at h
    obtain ⟨w', hw', hid, he⟩ := h
    obtain ⟨w, hw, hmap⟩ := List.mem_map.mp hw'
    by_cases hcond : w.id = a ∧ ¬ b ∈ w.edges
    · rw [if_pos hcond] at hmap
      subst hmap
      simp only at hid he
      rcases List.mem_append.mp he with he | he
      · exact Or.inl ⟨w, hw, hid, he⟩
      · exact Or.inr ⟨hid ▸ hcond.1, List.mem_singleton.mp he⟩
    · rw [if_neg hcond] at hmap
      subst hmap
      exact Or.inl ⟨w, hw, hid, he⟩
  · rw [if_neg hc] at h
    exact Or.inl h

theorem edgeRel_add_edge_mono {T : Type} {g : Graph T} {a b x v : String}
    (h : EdgeRel g x v) : EdgeRel (g.add_edge a b) x v := by
  unfold Graph.add_edge
  by_cases hc : g.containsId a = true ∧ g.containsId b = true
  · rw [if_pos hc]
    obtain ⟨w, hw, hid, he⟩ := h
    by_cases hcond : w.id = a ∧ ¬ b ∈ w.edges
    · exact ⟨{ w with edges := w.edges ++ [b] },
        List.mem_map.mpr ⟨w, hw, by simp [hcond]⟩, hid, List.mem_append_left _ he⟩
    · exact ⟨w, List.mem_map.mpr ⟨w, hw, by simp only [if_neg hcond]⟩, hid, he⟩
  · rw [if_neg hc]
    exact h

theorem edgeRel_add_edge_new {T : Type} {g : Graph T} {a b : String}
    (ha : a ∈ g.ids) (hb : b ∈ g.ids) : EdgeRel (g.add_edge a b) a b := by
  unfold Graph.add_edge
  rw [if_pos ⟨(containsId_iff g a).mpr ha, (containsId_iff g b).mpr hb⟩]
  obtain ⟨w, hw, hid⟩ := List.mem_map.mp ha
  by_cases hcond : w.id = a ∧ ¬ b ∈ w.edges
  · exact ⟨{ w with edges := w.edges ++ [b] },
      List.mem_map.mpr ⟨w, hw, by simp [hcond]⟩, hid, by simp⟩
  · have hbe : b ∈ w.edges := by
      by_contra hbe
      exact hcond ⟨hid, hbe⟩
    exact ⟨w, List.mem_map.mpr ⟨w, hw, by simp only [if_neg hcond]⟩, hid, hbe⟩

theorem wf_add_edge {T : Type} {g : Graph T} {a b : String} (hwf : WF g) :
    WF (g.add_edge a b) := by
  unfold Graph.add_edge
  by_cases hc : g.containsId a = true ∧ g.containsId b = true
  · rw [if_pos hc]
    have hb : b ∈ g.ids := (containsId_iff g b).mp hc.2
    refine ⟨?_, ?_, ?_⟩
    · have : (Graph.mk (T := T) (g.vertices.map (fun v =>
          if v.id = a ∧ ¬ b ∈ v.edges then { v with edges := v.edges ++ [b] } else v))).ids
          = g.ids := by
        have := ids_add_edge g a b
        unfold Graph.add_edge at this
        rwa [if_pos hc] at this
      rw [this]
      exact hwf.idsNodup
    · intro v' hv' e he
      obtain ⟨w, hw, hmap⟩ := List.mem_map.mp hv'
      have hids : (Graph.mk (T := T) (g.vertices.map (fun v =>
          if v.id = a ∧ ¬ b ∈ v.edges then { v with edges := v.edges ++ [b] } else v))).ids
          = g.ids := by
        have := ids_add_edge g a b
        unfold Graph.add_edge at this
        rwa [if_pos hc] at this
      rw [hids]
      by_cases hcond : w.id = a ∧ ¬ b ∈ w.edges
      · rw [if_pos hcond] at hmap
        subst hmap
        simp only at he
        rcases List.mem_append.mp he with he | he
        · exact hwf.targets w hw e he
        · exact (List.mem_singleton.mp he) ▸ hb
      · rw [if_neg hcond] at hmap
        subst hmap
        exact hwf.targets w hw e he
    · intro v' hv'
      obtain ⟨w, hw, hmap⟩ := List.mem_map.mp hv'
      by_cases hcond : w.id = a ∧ ¬ b ∈ w.edges
      · rw [if_pos hcond] at hmap
        subst hmap
        exact nodup_append_singleton (hwf.edgesNodup w hw) hcond.2
      · rw [if_neg hcond] at hmap
        subst hmap
        exact hwf.edgesNodup w hw
  · rw [if_neg hc]
    exact hwf

/-! ### The graph construction performed by assemble() -/

theorem buildVerts_go_wf :
    ∀ (assemblies : List ServiceAssembly) (g : Graph String), WF g →
    WF (assemblies.foldl (fun g a => g.add_vertex a.name a.name) g) := by
  intro assemblies
  induction assemblies with
  | nil => intro g hwf; exact hwf
  | cons a rest ih =>
    intro g hwf
    exact ih _ (wf_add_vertex hwf)

theorem buildVerts_go_mem :
    ∀ (assemblies : List ServiceAssembly) (g : Graph String) (x : String),
    x ∈ (assemblies.foldl (fun g a => g.add_vertex a.name a.name) g).ids
      ↔ x ∈ g.ids ∨ ∃ a ∈ assemblies, a.name = x := by
  intro assemblies
  induction assemblies with
  | nil => intro g x; simp
  | cons a rest ih =>
    intro g x
    rw [List.foldl_cons, ih]
    rw [mem_ids_add_vertex]
    constructor
    · rintro ((h | h) | ⟨b, hb, hbx⟩)
      · exact Or.inl h
      · exact Or.inr ⟨a, by simp, h.symm⟩
      · exact Or.inr ⟨b, by simp [hb], hbx⟩
    · rintro (h | ⟨b, hb, hbx⟩)
      · exact Or.inl (Or.inl h)
      · rcases List.mem_cons.mp hb with hb | hb
        · exact Or.inl (Or.inr (hb ▸ hbx.symm))
        · exact Or.inr ⟨b, hb, hbx⟩

theorem wf_buildVerts (assemblies : List ServiceAssembly) : WF (buildVerts assemblies) :=
  buildVerts_go_wf assemblies Graph.new wf_new

theorem mem_buildVerts (assemblies : List ServiceAssembly) (x : String) :
    x ∈ (buildVerts assemblies).ids ↔ ∃ a ∈ assemblies, a.name = x := by
  rw [buildVerts, buildVerts_go_mem]
  simp [Graph.new, Graph.ids]

theorem buildVerts_go_noedges :
    ∀ (assemblies : List ServiceAssembly) (g : Graph String),
    (∀ v ∈ g.vertices, v.edges = []) →
    ∀ v ∈ (assemblies.foldl (fun g a => g.add_vertex a.name a.name) g).vertices,
      v.edges = [] := by
  intro assemblies
  induction assemblies with
  | nil => intro g h; exact h
  | cons a rest ih =>
    intro g h
    refine ih _ ?_
    intro v hv
    change v ∈ (g.add_vertex a.name a.name).vertices at hv
    unfold Graph.add_vertex at hv
    by_cases hc : g.containsId a.name = true
    · rw [if_pos hc] at hv
      exact h v hv
    · rw [if_neg hc] at hv
      rcases List.mem_append.mp hv with hv | hv
      · exact h v hv
      · rw [List.mem_singleton.mp hv]

theorem no_edgeRel_buildVerts (assemblies : List ServiceAssembly) (x v : String) :
    ¬ EdgeRel (buildVerts assemblies) x v := by
  rintro ⟨w, hw, _, he⟩
  have := buildVerts_go_noedges assemblies Graph.new (by intro v hv; cases hv) w hw
  rw [this] at he
  cases he

/-! ### The provided-capability map -/

theorem lookupKey_append (m₁ m₂ : List (TypeKey × String)) (k : TypeKey) :
    lookupKey (m₁ ++ m₂) k
      = match lookupKey m₁ k with
        | some v => some v
        | none => lookupKey m₂ k := by
  induction m₁ with
  | nil => simp [lookupKey]
  | cons p rest ih =>
    by_cases hk : p.1 = k
    · simp [lookupKey, hk]
    · simpa [lookupKey, hk] using ih

theorem lookupKey_map_pairs (name : String) (ks : List TypeKey) (k : TypeKey) :
    lookupKey (ks.map (fun k' => (k', name))) k = if k ∈ ks then some name else none := by
  induction ks with
  | nil => simp [lookupKey]
  | cons k' rest ih =>
    by_cases hk : k' = k
    · simp [lookupKey, hk]
    · rw [List.map_cons]
      show lookupKey ((k', name) :: rest.map (fun k' => (k', name))) k = _
      rw [show lookupKey ((k', name) :: rest.map (fun k' => (k', name))) k
          = lookupKey (rest.map (fun k' => (k', name))) k from if_neg hk, ih]
      by_cases hm : k ∈ rest
      · rw [if_pos hm, if_pos (by simp [hm])]
      · rw [if_neg hm, if_neg (by simp [hm, Ne.symm hk])]

theorem lookupKey_mapped_none_iff (assemblies : List ServiceAssembly) (k : TypeKey) :
    lookupKey (mappedAssemblies assemblies) k = none
      ↔ ∀ a ∈ assemblies, k ∉ a.provides := by
  induction assemblies with
  | nil => simp [mappedAssemblies, lookupKey]
  | cons a rest ih =>
    rw [mappedAssemblies, lookupKey_append]
    constructor
    · intro h b hb
      cases hl : lookupKey (mappedAssemblies rest) k with
      | some v => rw [hl] at h; cases h
      | none =>
        rw [hl] at h
        rw [lookupKey_map_pairs] at h
        rcases List.mem_cons.mp hb with hb | hb
        · subst hb
          intro hk
          rw [if_pos (by simpa using hk)] at h
          cases h
        · exact (ih.mp hl) b hb
    · intro h
      have h1 : lookupKey (mappedAssemblies rest) k = none :=
        ih.mpr (fun b hb => h b (List.mem_cons_of_mem _ hb))
      rw [h1, lookupKey_map_pairs, if_neg (by simpa using h a (by simp))]

theorem lookupKey_mapped_some (assemblies : List ServiceAssembly) (k : TypeKey) (v : String) :
    lookupKey (mappedAssemblies assemblies) k = some v →
    ∃ a ∈ assemblies, a.name = v ∧ k ∈ a.provides := by
  induction assemblies with
  | nil => intro h; simp [mappedAssemblies, lookupKey] at h
  | cons a rest ih =>
    rw [mappedAssemblies, lookupKey_append]
    intro h
    cases hl : lookupKey (mappedAssemblies rest) k with
    | some v' =>
      rw [hl] at h
      obtain ⟨b, hb, hbv, hbk⟩ := ih (hl.trans h)
      exact ⟨b, List.mem_cons_of_mem _ hb, hbv, hbk⟩
    | none =>
      rw [hl, lookupKey_map_pairs] at h
      by_cases hm : k ∈ a.provides.reverse
      · rw [if_pos hm] at h
        exact ⟨a, by simp, Option.some_inj.mp h, by simpa using hm⟩
      · rw [if_neg hm] at h
        cases h

/-! ### The edge pass of assemble() -/

theorem addEdgesFor_ok_spec (m : List (TypeKey × String)) (n : String) :
    ∀ (reqs : List TypeKey) (g g'' : Graph String),
    addEdgesFor g m n reqs = .ok g'' →
    n ∈ g.ids → (∀ k p, lookupKey m k = some p → p ∈ g.ids) →
    g''.ids = g.ids ∧ (WF g → WF g'')
    ∧ (∀ x v, EdgeRel g'' x v ↔
        EdgeRel g x v ∨ (x = n ∧ ∃ k ∈ reqs, lookupKey m k = some v)) := by
  intro reqs
  induction reqs with
  | nil =>
    intro g g'' hok _ _
    have : g = g'' := by
      simpa [addEdgesFor] using hok
    subst this
    exact ⟨rfl, fun h => h, fun x v => by simp⟩
  | cons k rest ih =>
    intro g g'' hok hn hm
    rw [addEdgesFor] at hok
    cases hl : lookupKey m k with
    | none => rw [hl] at hok; cases hok
    | some p =>
      rw [hl] at hok
      have hp : p ∈ g.ids := hm k p hl
      have hids1 : (g.add_edge n p).ids = g.ids := ids_add_edge g n p
      obtain ⟨hids, hwf, hrel⟩ := ih (g.add_edge n p) g'' hok (hids1 ▸ hn)
        (fun k' p' hl' => hids1 ▸ hm k' p' hl')
      refine ⟨hids.trans hids1, fun h => hwf (wf_add_edge h), ?_⟩
      intro x v
      rw [hrel x v]
      constructor
      · rintro (h | ⟨hx, k', hk', hl'⟩)
        · rcases edgeRel_add_edge_elim h with h | ⟨hx, hv⟩
          · exact Or.inl h
          · exact Or.inr ⟨hx, k, by simp, hv ▸ hl⟩
        · exact Or.inr ⟨hx, k', by simp [hk'], hl'⟩
      · rintro (h | ⟨hx, k', hk', hl'⟩)
        · exact Or.inl (edgeRel_add_edge_mono h)
        · rcases List.mem_cons.mp hk' with hk' | hk'
          · subst hk'
            rw [hl] at hl'
            left
            have hv : v = p := (Option.some_inj.mp hl').symm
            subst hv hx
            exact edgeRel_add_edge_new hn hp
          · exact Or.inr ⟨hx, k', hk', hl'⟩

theorem addEdgesFor_ok_of_all (m : List (TypeKey × String)) (n : String) :
    ∀ (reqs : List TypeKey) (g : Graph String),
    (∀ k ∈ reqs, ∃ p, lookupKey m k = some p) →
    ∃ g'', addEdgesFor g m n reqs = .ok g'' := by
  intro reqs
  induction reqs with
  | nil => intro g _; exact ⟨g, rfl⟩
  | cons k rest ih =>
    intro g hall
    obtain ⟨p, hp⟩ := hall k (by simp)
    obtain ⟨g'', hg''⟩ := ih (g.add_edge n p) (fun k' hk' => hall k' (by simp [hk']))
    exact ⟨g'', by rw [addEdgesFor, hp]; exact hg''⟩

theorem addEdgesFor_missing (m : List (TypeKey × String)) (n : String) :
    ∀ (reqs : List TypeKey) (g : Graph String),
    (∃ k ∈ reqs, lookupKey m k = none) →
    ∃ k ∈ reqs, lookupKey m k = none ∧ addEdgesFor g m n reqs
      = .error (.MissingDependency n ("Required assembly not found for service: " ++ k)) := by
  intro reqs
  induction reqs with
  | nil => rintro g ⟨k, hk, _⟩; cases hk
  | cons k rest ih =>
    intro g hex
    cases hl : lookupKey m k with
    | none =>
      exact ⟨k, by simp, hl, by rw [addEdgesFor, hl]⟩
    | some p =>
      obtain ⟨k', hk', hl'⟩ := hex
      have hk'r : k' ∈ rest := by
        rcases List.mem_cons.mp hk' with h | h
        · subst h; rw [hl] at hl'; cases hl'
        · exact h
      obtain ⟨k'', hk'', hl'', heq⟩ := ih (g.add_edge n p) ⟨k', hk'r, hl'⟩
      exact ⟨k'', List.mem_cons_of_mem _ hk'', hl'', by rw [addEdgesFor, hl]; exact heq⟩

theorem addAllEdges_ok_spec (m : List (TypeKey × String)) :
    ∀ (assemblies : List ServiceAssembly) (g g'' : Graph String),
    addAllEdges m assemblies g = .ok g'' →
    (∀ a ∈ assemblies, a.name ∈ g.ids) → (∀ k p, lookupKey m k = some p → p ∈ g.ids) →
    g''.ids = g.ids ∧ (WF g → WF g'')
    ∧ (∀ x v, EdgeRel g'' x v ↔
        EdgeRel g x v ∨ ∃ a ∈ assemblies, x = a.name ∧
          ∃ k ∈ a.requires, lookupKey m k = some v) := by
  intro assemblies
  induction assemblies with
  | nil =>
    intro g g'' hok _ _
    have : g = g'' := by simpa [addAllEdges] using hok
    subst this
    exact ⟨rfl, fun h => h, fun x v => by simp⟩
  | cons a rest ih =>
    intro g g'' hok hns hm
    rw [addAllEdges] at hok
    cases he : addEdgesFor g m a.name a.requires with
    | error e => rw [he] at hok; cases hok
    | ok g1 =>
      rw [he] at hok
      obtain ⟨hids1, hwf1, hrel1⟩ := addEdgesFor_ok_spec m a.name a.requires g g1 he
        (hns a (by simp)) hm
      obtain ⟨hids, hwf, hrel⟩ := ih g1 g'' hok
        (fun b hb => hids1 ▸ hns b (List.mem_cons_of_mem _ hb))
        (fun k p hl => hids1 ▸ hm k p hl)
      refine ⟨hids.trans hids1, fun h => hwf (hwf1 h), ?_⟩
      intro x v
      rw [hrel x v]
      constructor
      · rintro (h | ⟨b, hb, hx, hk⟩)
        · rcases (hrel1 x v).mp h with h | ⟨hx, hk⟩
          · exact Or.inl h
          · exact Or.inr ⟨a, by simp, hx, hk⟩
        · exact Or.inr ⟨b, List.mem_cons_of_mem _ hb, hx, hk⟩
      · rintro (h | ⟨b, hb, hx, hk⟩)
        · exact Or.inl ((hrel1 x v).mpr (Or.inl h))
        · rcases List.mem_cons.mp hb with hbe | hbe
          · subst hbe
            exact Or.inl ((hrel1 x v).mpr (Or.inr ⟨hx, hk⟩))
          · exact Or.inr ⟨b, hbe, hx, hk⟩

theorem addAllEdges_missing (m : List (TypeKey × String)) :
    ∀ (assemblies : List ServiceAssembly) (g : Graph String),
    (∃ a ∈ assemblies, ∃ k ∈ a.requires, lookupKey m k = none) →
    ∃ a ∈ assemblies, ∃ k ∈ a.requires, lookupKey m k = none ∧
      addAllEdges m assemblies g
        = .error (.MissingDependency a.name
            ("Required assembly not found for service: " ++ k)) := by
  intro assemblies
  induction assemblies with
  | nil => rintro g ⟨a, ha, _⟩; cases ha
  | cons a rest ih =>
    intro g hex
    by_cases hmiss : ∃ k ∈ a.requires, lookupKey m k = none
    · obtain ⟨k, hk, hl, heq⟩ := addEdgesFor_missing m a.name a.requires g hmiss
      exact ⟨a, by simp, k, hk, hl, by rw [addAllEdges, heq]⟩
    · push_neg at hmiss
      have hall : ∀ k ∈ a.requires, ∃ p, lookupKey m k = some p := by
        intro k hk
        cases hl : lookupKey m k with
        | none => exact absurd hl (hmiss k hk)
        | some p => exact ⟨p, rfl⟩
      obtain ⟨g1, hg1⟩ := addEdgesFor_ok_of_all m a.name a.requires g hall
      obtain ⟨b, hb, k, hk, hl, heq⟩ := ih g1 (by
        obtain ⟨b, hb, k, hk, hl⟩ := hex
        rcases List.mem_cons.mp hb with hbe | hbe
        · subst hbe
          exact absurd hl (hmiss k hk)
        · exact ⟨b, hbe, k, hk, hl⟩)
      exact ⟨b, List.mem_cons_of_mem _ hb, k, hk, hl, by rw [addAllEdges, hg1]; exact heq⟩

theorem addAllEdges_ok_of_all (m : List (TypeKey × String)) :
    ∀ (assemblies : List ServiceAssembly) (g : Graph String),
    (∀ a ∈ assemblies, ∀ k ∈ a.requires, ∃ p, lookupKey m k = some p) →
    ∃ g'', addAllEdges m assemblies g = .ok g'' := by
  intro assemblies
  induction assemblies with
  | nil => intro g _; exact ⟨g, rfl⟩
  | cons a rest ih =>
    intro g hall
    obtain ⟨g1, hg1⟩ := addEdgesFor_ok_of_all m a.name a.requires g (hall a (by simp))
    obtain ⟨g'', hg''⟩ := ih g1 (fun b hb => hall b (List.mem_cons_of_mem _ hb))
    exact ⟨g'', by rw [addAllEdges, hg1]; exact hg''⟩

/-! ### Characterization of the complete graph construction -/

theorem buildFull_ok_spec {assemblies : List ServiceAssembly} {g' : Graph String}
    (hok : buildFull assemblies = .ok g') :
    WF g' ∧ (∀ x, x ∈ g'.ids ↔ ∃ a ∈ assemblies, a.name = x)
    ∧ (∀ x v, EdgeRel g' x v ↔ DepRel assemblies x v) := by
  have hns : ∀ a ∈ assemblies, a.name ∈ (buildVerts assemblies).ids := by
    intro a ha
    exact (mem_buildVerts assemblies a.name).mpr ⟨a, ha, rfl⟩
  have hm : ∀ k p, lookupKey (mappedAssemblies assemblies) k = some p
      → p ∈ (buildVerts assemblies).ids := by
    intro k p hl
    obtain ⟨a, ha, hav, _⟩ := lookupKey_mapped_some assemblies k p hl
    exact (mem_buildVerts assemblies p).mpr ⟨a, ha, hav⟩
  obtain ⟨hids, hwf, hrel⟩ := addAllEdges_ok_spec (mappedAssemblies assemblies) assemblies
    (buildVerts assemblies) g' hok hns hm
  refine ⟨hwf (wf_buildVerts assemblies), ?_, ?_⟩
  · intro x
    rw [hids]
    exact mem_buildVerts assemblies x
  · intro x v
    rw [hrel x v]
    constructor
    · rintro (h | ⟨a, ha, hx, k, hk, hl⟩)
      · exact absurd h (no_edgeRel_buildVerts assemblies x v)
      · exact ⟨a, ha, hx.symm, k, hk, hl⟩
    · rintro ⟨a, ha, hx, k, hk, hl⟩
      exact Or.inr ⟨a, ha, hx.symm, k, hk, hl⟩

theorem buildFull_missing {assemblies : List ServiceAssembly}
    (h : ∃ a ∈ assemblies, ∃ k ∈ a.requires, ∀ p ∈ assemblies, k ∉ p.provides) :
    ∃ a ∈ assemblies, ∃ k ∈ a.requires, (∀ p ∈ assemblies, k ∉ p.provides) ∧
      buildFull assemblies
        = .error (.MissingDependency a.name
            ("Required assembly not found for service: " ++ k)) := by
  obtain ⟨a, ha, k, hk, hnp⟩ := h
  obtain ⟨b, hb, k', hk', hl', heq⟩ := addAllEdges_missing (mappedAssemblies assemblies)
    assemblies (buildVerts assemblies)
    ⟨a, ha, k, hk, (lookupKey_mapped_none_iff assemblies k).mpr hnp⟩
  exact ⟨b, hb, k', hk', (lookupKey_mapped_none_iff assemblies k').mp hl', heq⟩

theorem buildFull_ok_of_noMissing {assemblies : List ServiceAssembly}
    (h : NoMissing assemblies) : ∃ g', buildFull assemblies = .ok g' := by
  refine addAllEdges_ok_of_all (mappedAssemblies assemblies) assemblies
    (buildVerts assemblies) ?_
  intro a ha k hk
  cases hl : lookupKey (mappedAssemblies assemblies) k with
  | some p => exact ⟨p, rfl⟩
  | none =>
    obtain ⟨p, hp, hkp⟩ := h a ha k hk
    exact absurd hkp ((lookupKey_mapped_none_iff assemblies k).mp hl p hp)

/-! ### Unfolding lemmas for assemble() and shutdown() -/

/-- The dependencies-first execution order assemble() derives from the sort
of the given graph. -/
def orderedOf (assemblies : List ServiceAssembly) (g' : Graph String) :
    List ServiceAssembly :=
  (g'.topological_sort).sorted_order.reverse.filterMap
    (fun n => assemblies.find? (fun a => a.name == n))

theorem runPhase_all_ok (hook : ServiceAssembly → Result Unit) (ev : String → LifecycleEvent) :
    ∀ l : List ServiceAssembly, (∀ a ∈ l, hook a = .ok ()) →
    runPhase hook ev l = (l.map (fun a => ev a.name), none) := by
  intro l
  induction l with
  | nil => intro _; rfl
  | cons a rest ih =>
    intro h
    rw [runPhase, h a (by simp), ih (fun b hb => h b (List.mem_cons_of_mem _ hb))]
    rfl

theorem assemble_eq_error_build {assemblies : List ServiceAssembly} {e : AssemblyError}
    (h : buildFull assemblies = .error e) :
    Assembler.assemble assemblies = (.error e, []) := by
  rw [Assembler.assemble, h]

theorem assemble_eq_cycle {assemblies : List ServiceAssembly} {g' : Graph String}
    (hok : buildFull assemblies = .ok g')
    (hc : (g'.topological_sort).has_cycle = true) :
    Assembler.assemble assemblies
      = (.error (.CyclicDependency (cycleInfo (g'.topological_sort).cycle_path)), []) := by
  rw [Assembler.assemble, hok]
  simp only [hc, if_true]

theorem assemble_eq_success {assemblies : List ServiceAssembly} {g' : Graph String}
    (hok : buildFull assemblies = .ok g')
    (hc : (g'.topological_sort).has_cycle = false)
    (hhooks : ∀ a ∈ orderedOf assemblies g',
      a.init = .ok () ∧ a.prepare = .ok () ∧ a.start = .ok ()) :
    Assembler.assemble assemblies
      = (.ok (orderedOf assemblies g'),
        (orderedOf assemblies g').map (fun a => LifecycleEvent.init a.name)
          ++ (orderedOf assemblies g').map (fun a => LifecycleEvent.prepare a.name)
          ++ (orderedOf assemblies g').map (fun a => LifecycleEvent.start a.name)) := by
  rw [Assembler.assemble, hok]
  simp only [hc, Bool.false_eq_true, if_false]
  rw [show (g'.topological_sort).sorted_order.reverse.filterMap
      (fun n => assemblies.find? (fun a => a.name == n)) = orderedOf assemblies g' from rfl]
  rw [runPhase_all_ok _ _ _ (fun a ha => (hhooks a ha).1),
    runPhase_all_ok _ _ _ (fun a ha => (hhooks a ha).2.1),
    runPhase_all_ok _ _ _ (fun a ha => (hhooks a ha).2.2)]

theorem assemble_phases_eq {assemblies : List ServiceAssembly} {g' : Graph String}
    (hok : buildFull assemblies = .ok g')
    (hc : (g'.topological_sort).has_cycle = false) :
    Assembler.assemble assemblies =
      (match (runPhase (fun x => x.init) LifecycleEvent.init (orderedOf assemblies g')).2 with
       | some e => (.error e,
          (runPhase (fun x => x.init) LifecycleEvent.init (orderedOf assemblies g')).1)
       | none =>
         match (runPhase (fun x => x.prepare) LifecycleEvent.prepare
             (orderedOf assemblies g')).2 with
         | some e => (.error e,
            (runPhase (fun x => x.init) LifecycleEvent.init (orderedOf assemblies g')).1
              ++ (runPhase (fun x => x.prepare) LifecycleEvent.prepare
                (orderedOf assemblies g')).1)
         | none =>
           match (runPhase (fun x => x.start) LifecycleEvent.start
               (orderedOf assemblies g')).2 with
           | some e => (.error e,
              (runPhase (fun x => x.init) LifecycleEvent.init (orderedOf assemblies g')).1
                ++ (runPhase (fun x => x.prepare) LifecycleEvent.prepare
                  (orderedOf assemblies g')).1
                ++ (runPhase (fun x => x.start) LifecycleEvent.start
                  (orderedOf assemblies g')).1)
           | none => (.ok (orderedOf assemblies g'),
              (runPhase (fun x => x.init) LifecycleEvent.init (orderedOf assemblies g')).1
                ++ (runPhase (fun x => x.prepare) LifecycleEvent.prepare
                  (orderedOf assemblies g')).1
                ++ (runPhase (fun x => x.start) LifecycleEvent.start
                  (orderedOf assemblies g')).1)) := by
  rw [Assembler.assemble, hok]
  simp only [hc, Bool.false_eq_true, if_false]
  rfl

theorem assemble_ok_elim {assemblies out : List ServiceAssembly}
    (h : (Assembler.assemble assemblies).1 = .ok out) :
    ∃ g', buildFull assemblies = .ok g'
      ∧ (g'.topological_sort).has_cycle = false
      ∧ out = orderedOf assemblies g' := by
  cases hb : buildFull assemblies with
  | error e =>
    rw [assemble_eq_error_build hb] at h
    cases h
  | ok g' =>
    refine ⟨g', rfl, ?_⟩
    by_cases hc : (g'.topological_sort).has_cycle = true
    · rw [assemble_eq_cycle hb hc] at h
      cases h
    · have hcf : (g'.topological_sort).has_cycle = false := by simpa using hc
      refine ⟨hcf, ?_⟩
      rw [assemble_phases_eq hb hcf] at h
      cases h1 : (runPhase (fun x => x.init) LifecycleEvent.init (orderedOf assemblies g')).2 with
      | some e => rw [h1] at h; cases h
      | none =>
        rw [h1] at h
        cases h2 : (runPhase (fun x => x.prepare) LifecycleEvent.prepare
            (orderedOf assemblies g')).2 with
        | some e => rw [h2] at h; cases h
        | none =>
          rw [h2] at h
          cases h3 : (runPhase (fun x => x.start) LifecycleEvent.start
              (orderedOf assemblies g')).2 with
          | some e => rw [h3] at h; cases h
          | none =>
            rw [h3] at h
            simpa using h.symm

theorem runTeardown_events (hook : ServiceAssembly → Result Unit)
    (fmt : ServiceAssembly → AssemblyError → String) (ev : String → LifecycleEvent) :
    ∀ l : List ServiceAssembly,
    (runTeardown hook fmt ev l).2 = l.map (fun a => ev a.name) := by
  intro l
  induction l with
  | nil => rfl
  | cons a rest ih =>
    rw [runTeardown]
    cases hook a with
    | ok u => simpa using ih
    | error e => simpa using ih

theorem runTeardown_errors (hook : ServiceAssembly → Result Unit)
    (fmt : ServiceAssembly → AssemblyError → String) (ev : String → LifecycleEvent) :
    ∀ l : List ServiceAssembly,
    (runTeardown hook fmt ev l).1 = l.filterMap (fun a =>
      match hook a with
      | .ok _ => none
      | .error e => some (fmt a e)) := by
  intro l
  induction l with
  | nil => rfl
  | cons a rest ih =>
    rw [runTeardown, List.filterMap_cons]
    cases hook a with
    | ok u => simpa using ih
    | error e => simpa using ih

theorem runTeardown_errors_nil_iff (hook : ServiceAssembly → Result Unit)
    (fmt : ServiceAssembly → AssemblyError → String) (ev : String → LifecycleEvent)
    (l : List ServiceAssembly) :
    (runTeardown hook fmt ev l).1 = [] ↔ ∀ a ∈ l, hook a = .ok () := by
  rw [runTeardown_errors, List.filterMap_eq_nil_iff]
  constructor
  · intro h a ha
    have := h a ha
    cases he : hook a with
    | ok u => cases u; rfl
    | error e => rw [he] at this; cases this
  · intro h a ha
    rw [h a ha]

/-! ### Remaining generic helpers -/

theorem acyclic_of_single {T : Type} {g : Graph T} {a b : String}
    (hchar : ∀ u v, EdgeRel g u v → u = a ∧ v = b) (hab : a ≠ b) : Acyclic g := by
  have htg : ∀ u v, Relation.TransGen (EdgeRel g) u v → u = a ∧ v = b := by
    intro u v h
    induction h with
    | single h => exact hchar _ _ h
    | tail hub hbc ih =>
      have h2 := hchar _ _ hbc
      have : a = b := by rw [← h2.1, ih.2]
      exact absurd this hab
  intro x hx
  have h := htg x x hx
  exact hab (h.1.symm.trans h.2)

theorem two_elem_of_before {l : List String} {a b : String} (hab : a ≠ b)
    (hperm : l.Perm [a, b]) (hbef : Before l a b) : l = [a, b] := by
  have hlen : l.length = 2 := by simpa using hperm.length_eq
  match l, hlen with
  | [x, y], _ =>
    have hax : a ∈ [x, y] := hperm.mem_iff.mpr (by simp)
    have hbx : b ∈ [x, y] := hperm.mem_iff.mpr (by simp)
    by_cases hx : x = a
    · have hy : y = b := by
        rcases (by simpa using hbx : b = x ∨ b = y) with h | h
        · exact absurd (h.trans hx) (Ne.symm hab)
        · exact h.symm
      rw [hx, hy]
    · have hya : y = a := by
        rcases (by simpa using hax : a = x ∨ a = y) with h | h
        · exact absurd h.symm hx
        · exact h.symm
      have hxb : x = b := by
        rcases (by simpa using hbx : b = x ∨ b = y) with h | h
        · exact h.symm
        · rw [hya] at h
          exact absurd h.symm hab
      exfalso
      obtain ⟨i, j, hij, hi, hj⟩ := hbef
      have hjlen : j < 2 := by
        have := (List.getElem?_eq_some.mp hj).1
        simpa using this
      interval_cases j
      · omega
      · have : y = b := by
          have : ([x, y][1]?) = some y := rfl
          rw [this] at hj
          exact Option.some_inj.mp hj
        rw [hya] at this
        exact hab this

theorem filterMap_find_names :
    ∀ assemblies : List ServiceAssembly, (assemblies.map (·.name)).Nodup →
    (assemblies.map (·.name)).filterMap
      (fun n => assemblies.find? (fun a => a.name == n)) = assemblies := by
  intro assemblies
  induction assemblies with
  | nil => intro _; rfl
  | cons a rest ih =>
    intro hn
    rw [List.map_cons, List.nodup_cons] at hn
    rw [List.map_cons, List.filterMap_cons]
    have h1 : List.find? (fun b => b.name == a.name) (a :: rest) = some a :=
      List.find?_cons_of_pos _ (by simp)
    rw [h1]
    have h2 : (rest.map (·.name)).filterMap
        (fun n => (a :: rest).find? (fun b => b.name == n))
        = (rest.map (·.name)).filterMap (fun n => rest.find? (fun b => b.name == n)) := by
      refine List.filterMap_congr ?_
      intro n hnmem
      have hne : a.name ≠ n := by
        intro he
        exact hn.1 (he ▸ hnmem)
      rw [List.find?_cons_of_neg _ (by simpa using hne)]
    rw [h2, ih hn.2]

/-- The error messages shutdown() collects, in collection order: finalize
failures over the reversed list, then shutdown failures over the reversed
list, each formatted with the assembly name. -/
def shutdownErrors (assemblies : List ServiceAssembly) : List String :=
  assemblies.reverse.filterMap (fun a =>
    match a.finalize with
    | .ok _ => none
    | .error e => some (fmtFinalizeFailure a e))
  ++ assemblies.reverse.filterMap (fun a =>
    match a.shutdown with
    | .ok _ => none
    | .error e => some (fmtShutdownFailure a e))

/-! ### The claims -/

/-- Claim C3: resolving a type from the service registry returns the shared
instance previously registered for it, and aborts the calling context
(a distinguished aborted outcome, not a normal error return) whenever no
instance is present.  The registry module holding resolve is modelled from
the spec (see the comment on ServiceRegistry.resolve). -/
theorem claim_C3 {V : Type} (r : ServiceRegistry V) (k : TypeKey) :
    (∀ v : V, r.lookup k = some v → r.resolve k = .found v)
    ∧ (∀ v : V, (r.register k v).resolve k = .found v)
    ∧ (r.lookup k = none →
        r.resolve k = .aborted ("Service \x27" ++ k ++ "\x27 not found in registry")) := by
  refine ⟨?_, ?_, ?_⟩
  · intro v h
    rw [ServiceRegistry.resolve, h]
  · intro v
    rw [ServiceRegistry.resolve]
    have : (r.register k v).lookup k = some v := by
      rw [ServiceRegistry.register, ServiceRegistry.lookup, if_pos rfl]
    rw [this]
  · intro h
    rw [ServiceRegistry.resolve, h]

/-- Witness for C3 at a concrete registry. -/
theorem claim_C3_witness :
    (ServiceRegistry.resolve (ServiceRegistry.register ([] : ServiceRegistry Nat) "svc" 7) "svc")
      = .found 7
    ∧ (ServiceRegistry.resolve ([] : ServiceRegistry Nat) "svc")
      = .aborted "Service \x27svc\x27 not found in registry" :=
  ⟨(claim_C3 ([] : ServiceRegistry Nat) "svc").2.1 7,
    ((claim_C3 ([] : ServiceRegistry Nat) "svc").2.2 rfl).trans (by decide)⟩

/-- Claim C4: shutdown() iterates the stored list in reverse invoking
finalize on every assembly regardless of failures, then again in reverse
invoking shutdown on every assembly; it returns Ok iff no hook failed, and
otherwise one aggregated GeneralError whose message is exactly the
newline-joined list of individual failures, each naming the failing
assembly. -/
theorem claim_C4 (assemblies : List ServiceAssembly) :
    (Assembler.shutdown assemblies).2
      = assemblies.reverse.map (fun a => LifecycleEvent.finalize a.name)
        ++ assemblies.reverse.map (fun a => LifecycleEvent.shutdown a.name)
    ∧ ((Assembler.shutdown assemblies).1 = .ok ()
        ↔ ∀ a ∈ assemblies, a.finalize = .ok () ∧ a.shutdown = .ok ())
    ∧ (shutdownErrors assemblies ≠ [] →
        (Assembler.shutdown assemblies).1
          = .error (.GeneralError ("Errors shutting down:\n "
              ++ String.intercalate "\n" (shutdownErrors assemblies)))) := by
  have herr : (runTeardown (fun x => x.finalize) fmtFinalizeFailure LifecycleEvent.finalize
        assemblies.reverse).1
      ++ (runTeardown (fun x => x.shutdown) fmtShutdownFailure LifecycleEvent.shutdown
        assemblies.reverse).1 = shutdownErrors assemblies := by
    rw [runTeardown_errors, runTeardown_errors, shutdownErrors]
  refine ⟨?_, ?_, ?_⟩
  · rw [Assembler.shutdown]
    simp only []
    rw [runTeardown_events, runTeardown_events]
  · rw [Assembler.shutdown]
    simp only []
    by_cases he : ((runTeardown (fun x => x.finalize) fmtFinalizeFailure LifecycleEvent.finalize
        assemblies.reverse).1
      ++ (runTeardown (fun x => x.shutdown) fmtShutdownFailure LifecycleEvent.shutdown
        assemblies.reverse).1).isEmpty
    · rw [if_pos he]
      rw [List.isEmpty_iff, List.append_eq_nil] at he
      constructor
      · intro _ a ha
        exact ⟨(runTeardown_errors_nil_iff _ _ _ _).mp he.1 a (by simpa using ha),
          (runTeardown_errors_nil_iff _ _ _ _).mp he.2 a (by simpa using ha)⟩
      · intro _
        rfl
    · rw [if_neg he]
      rw [List.isEmpty_iff, List.append_eq_nil] at he
      constructor
      · intro h
        cases h
      · intro h
        exfalso
        refine he ⟨?_, ?_⟩
        · exact (runTeardown_errors_nil_iff _ _ _ _).mpr
            (fun a ha => (h a (by simpa using ha)).1)
        · exact (runTeardown_errors_nil_iff _ _ _ _).mpr
            (fun a ha => (h a (by simpa using ha)).2)
  · intro hne
    rw [Assembler.shutdown]
    simp only []
    have hne' : ¬ ((runTeardown (fun x => x.finalize) fmtFinalizeFailure LifecycleEvent.finalize
        assemblies.reverse).1
      ++ (runTeardown (fun x => x.shutdown) fmtShutdownFailure LifecycleEvent.shutdown
        assemblies.reverse).1).isEmpty := by
      rw [List.isEmpty_iff, herr]
      exact hne
    rw [if_neg hne', herr]

/-- Witness for C4 on a stored list with one assembly failing both teardown
hooks and one succeeding. -/
theorem claim_C4_witness :
    (Assembler.shutdown
      [⟨"P", [], [], .ok (), .ok (), .ok (), .ok (), .ok ()⟩,
       ⟨"F", [], [], .ok (), .ok (), .ok (), .error (.GeneralError "Finalize error"),
        .error (.GeneralError "Shutdown error")⟩]).1
      = .error (.GeneralError
          ("Errors shutting down:\n Finalize: \x27F\x27: Finalize error\nShutdown: F: Shutdown error")) :=
  ((claim_C4 _).2.2 (by decide)).trans (by decide)

/-- Claim C9: runtime-mode parsing is case-insensitive, mapping the five
accepted lowercase spellings to their modes, and every other input fails
with an InvalidRuntimeMode error carrying the original offending string. -/
theorem claim_C9 (s : String) :
    (RuntimeMode.parse s = .ok .Production ↔ (s.toLower = "production" ∨ s.toLower = "prod"))
    ∧ (RuntimeMode.parse s = .ok .Development
        ↔ (s.toLower = "development" ∨ s.toLower = "dev"))
    ∧ (RuntimeMode.parse s = .ok .Debug ↔ s.toLower = "debug")
    ∧ (RuntimeMode.parse s = .error (.InvalidRuntimeMode s)
        ↔ ¬ (s.toLower = "production" ∨ s.toLower = "prod" ∨ s.toLower = "development"
            ∨ s.toLower = "dev" ∨ s.toLower = "debug")) := by
  unfold RuntimeMode.parse
  by_cases h1 : s.toLower = "production" ∨ s.toLower = "prod"
  · rw [if_pos h1]
    refine ⟨iff_of_true rfl h1, ?_, ?_, ?_⟩
    · refine iff_of_false (by simp) ?_
      rcases h1 with h | h <;> rw [h] <;> rintro (hc | hc) <;> revert hc <;> decide
    · refine iff_of_false (by simp) ?_
      rcases h1 with h | h <;> rw [h] <;> intro hc <;> revert hc <;> decide
    · refine iff_of_false (by simp) ?_
      intro hc
      exact hc (by tauto)
  · rw [if_neg h1]
    by_cases h2 : s.toLower = "development" ∨ s.toLower = "dev"
    · rw [if_pos h2]
      refine ⟨iff_of_false (by simp) h1, iff_of_true rfl h2, ?_, ?_⟩
      · refine iff_of_false (by simp) ?_
        rcases h2 with h | h <;> rw [h] <;> intro hc <;> revert hc <;> decide
      · refine iff_of_false (by simp) ?_
        intro hc
        exact hc (by tauto)
    · rw [if_neg h2]
      by_cases h3 : s.toLower = "debug"
      · rw [if_pos h3]
        refine ⟨iff_of_false (by simp) h1, iff_of_false (by simp) h2,
          iff_of_true rfl h3, ?_⟩
        refine iff_of_false (by simp) ?_
        intro hc
        exact hc (by tauto)
      · rw [if_neg h3]
        refine ⟨iff_of_false (by simp) h1, iff_of_false (by simp) h2,
          iff_of_false (by simp) h3, iff_of_true rfl ?_⟩
        rintro (h | h | h | h | h)
        · exact h1 (Or.inl h)
        · exact h1 (Or.inr h)
        · exact h2 (Or.inl h)
        · exact h2 (Or.inr h)
        · exact h3 h

/-- Claim C8: a single vertex with a self-edge always sorts to
has_cycle = true with an empty sorted order (and the reconstructed cycle
path is the vertex repeated). -/
theorem claim_C8 {T : Type} (id : String) (val : T) :
    ((Graph.new.add_vertex id val).add_edge id id).topological_sort
      = ⟨[], true, [id, id]⟩ := by
  simp [Graph.topological_sort, Graph.detect_cycle_with_path, Graph.add_vertex,
    Graph.add_edge, Graph.new, Graph.containsId, Graph.ids, dcwpLoop, dfsFuel,
    detect_cycle, dfsNeighbors, setState, setParent, Graph.edgesOf, Graph.findVertex,
    buildCycle, traceBack, UNVISITED, VISITING, VISITED]

/-- The graph of the spec scenario a requiring Consumer and its Provider:
one dependency edge Consumer → Provider. -/
def gC1 : Graph Nat :=
  ((Graph.new.add_vertex "Consumer" 1).add_vertex "Provider" 2).add_edge "Consumer" "Provider"

theorem gC1_edge_char : ∀ u v, EdgeRel gC1 u v → u = "Consumer" ∧ v = "Provider" := by
  rintro u v ⟨w, hw, hid, he⟩
  have hv : gC1.vertices = [⟨"Consumer", 1, ["Provider"]⟩, ⟨"Provider", 2, []⟩] := by decide
  rw [hv] at hw
  rcases List.mem_cons.mp hw with h | h
  · subst h
    simp only at hid he
    exact ⟨hid.symm, by simpa using he⟩
  · rw [List.mem_singleton.mp h] at he
    simp at he

/-- Counterexample to claim C1 as stated: in the acyclic requires/provides
graph with the single edge Consumer → Provider, the provider does NOT
appear before the requirer in sorted_order; the order is
[Consumer, Provider]. -/
theorem claim_C1_counterexample :
    EdgeRel gC1 "Consumer" "Provider"
    ∧ Acyclic gC1
    ∧ (gC1.topological_sort).sorted_order = ["Consumer", "Provider"]
    ∧ ¬ Before (gC1.topological_sort).sorted_order "Provider" "Consumer" := by
  have hs : (gC1.topological_sort).sorted_order = ["Consumer", "Provider"] := by decide
  refine ⟨by decide, acyclic_of_single gC1_edge_char (by decide), hs, ?_⟩
  rw [hs]
  rintro ⟨i, j, hij, hi, hj⟩
  have hjlen : j < 2 := by
    have := (List.getElem?_eq_some.mp hj).1
    simpa using this
  interval_cases j
  · omega
  · have h2 : (["Consumer", "Provider"][1]?) = some "Provider" := rfl
    rw [h2] at hj
    have := Option.some_inj.mp hj
    revert this
    decide

/-- Claim C1 as amended: for every well-formed graph built from an acyclic
requires/provides declaration set, topological_sort reports no cycle and
places every assembly BEFORE every assembly it (transitively) requires:
for every edge u → v, u appears before v in sorted_order (hence the
reversed order used for execution places v before u). -/
theorem claim_C1_amended {T : Type} {g : Graph T} (hwf : WF g) (hacyc : Acyclic g) :
    (g.topological_sort).has_cycle = false
    ∧ ∀ u v, EdgeRel g u v → Before (g.topological_sort).sorted_order u v := by
  obtain ⟨h1, _, h3⟩ := topological_sort_acyclic hwf hacyc
  exact ⟨h1, h3⟩

/-- Witness for the amended C1 on the Consumer → Provider graph. -/
theorem claim_C1_amended_witness :
    (gC1.topological_sort).has_cycle = false
    ∧ Before (gC1.topological_sort).sorted_order "Consumer" "Provider" := by
  have hwf : WF gC1 := ⟨by decide, by decide, by decide⟩
  obtain ⟨h1, h2⟩ := claim_C1_amended hwf (acyclic_of_single gC1_edge_char (by decide))
  exact ⟨h1, h2 "Consumer" "Provider" (by decide)⟩

/-- Claim C5: whenever some registered assembly requires a capability that
no registered assembly provides, assemble() returns a MissingDependency
error naming a requiring assembly (the first such, with the offending
capability in the message), and no lifecycle hook is invoked (the trace is
empty). -/
theorem claim_C5 {assemblies : List ServiceAssembly}
    (h : ∃ a ∈ assemblies, ∃ k ∈ a.requires, ∀ pr ∈ assemblies, k ∉ pr.provides) :
    ∃ a ∈ assemblies, (∃ k ∈ a.requires, ∀ pr ∈ assemblies, k ∉ pr.provides)
      ∧ ∃ k ∈ a.requires, Assembler.assemble assemblies
          = (.error (.MissingDependency a.name
              ("Required assembly not found for service: " ++ k)), []) := by
  obtain ⟨a, ha, k, hk, hnp, heq⟩ := buildFull_missing h
  exact ⟨a, ha, ⟨k, hk, hnp⟩, k, hk, assemble_eq_error_build heq⟩

/-- Witness for C5 on a single assembly requiring an unprovided capability. -/
theorem claim_C5_witness :
    ∃ a ∈ [(⟨"NeedsDependency", [], ["A"], .ok (), .ok (), .ok (), .ok (), .ok ()⟩
        : ServiceAssembly)],
      (∃ k ∈ a.requires, ∀ pr ∈ [(⟨"NeedsDependency", [], ["A"], .ok (), .ok (), .ok (),
          .ok (), .ok ()⟩ : ServiceAssembly)], k ∉ pr.provides)
      ∧ ∃ k ∈ a.requires, Assembler.assemble
          [(⟨"NeedsDependency", [], ["A"], .ok (), .ok (), .ok (), .ok (), .ok ()⟩
            : ServiceAssembly)]
          = (.error (.MissingDependency a.name
              ("Required assembly not found for service: " ++ k)), []) :=
  claim_C5 (by decide)

/-- The registered set witnessing the missing-before-cycle priority: two
assemblies forming a provides/requires cycle plus one with an unprovided
requirement. -/
def cexC10 : List ServiceAssembly :=
  [⟨"Assembly1", ["A"], ["B"], .ok (), .ok (), .ok (), .ok (), .ok ()⟩,
   ⟨"Assembly2", ["B"], ["A"], .ok (), .ok (), .ok (), .ok (), .ok ()⟩,
   ⟨"Assembly3", [], ["Z"], .ok (), .ok (), .ok (), .ok (), .ok ()⟩]

/-- Claim C10: when a registered set has both a missing required capability
and a dependency cycle among the declared capabilities, assemble() returns
the MissingDependency error, never the CyclicDependency error: the
per-assembly missing-provider check runs before cycle detection. -/
theorem claim_C10 {assemblies : List ServiceAssembly}
    (hmiss : ∃ a ∈ assemblies, ∃ k ∈ a.requires, ∀ pr ∈ assemblies, k ∉ pr.provides)
    (hcyc : ∃ z, Relation.TransGen (DepRel assemblies) z z) :
    (∃ a ∈ assemblies, ∃ msg, (Assembler.assemble assemblies).1
        = .error (.MissingDependency a.name msg))
    ∧ ∀ info, (Assembler.assemble assemblies).1 ≠ .error (.CyclicDependency info) := by
  obtain ⟨a, ha, k, hk, hnp, heq⟩ := buildFull_missing hmiss
  have he := assemble_eq_error_build heq
  constructor
  · exact ⟨a, ha, _, by rw [he]⟩
  · intro info hinfo
    rw [he] at hinfo
    simp at hinfo

/-- Witness for C10 on a concrete set with both defects. -/
theorem claim_C10_witness :
    (∃ a ∈ cexC10, ∃ msg, (Assembler.assemble cexC10).1
        = .error (.MissingDependency a.name msg))
    ∧ ∀ info, (Assembler.assemble cexC10).1 ≠ .error (.CyclicDependency info) :=
  claim_C10 (by decide)
    ⟨"Assembly1", Relation.TransGen.tail
      (Relation.TransGen.single (show DepRel cexC10 "Assembly1" "Assembly2" by decide))
      (show DepRel cexC10 "Assembly2" "Assembly1" by decide)⟩

/-- The registered set refuting C6 as stated. -/
def cexC6 : List ServiceAssembly :=
  [⟨"Assembly1", ["A"], ["B"], .ok (), .ok (), .ok (), .ok (), .ok ()⟩,
   ⟨"Assembly2", ["B"], ["A"], .ok (), .ok (), .ok (), .ok (), .ok ()⟩,
   ⟨"Assembly3", [], ["Z"], .ok (), .ok (), .ok (), .ok (), .ok ()⟩]

/-- Counterexample to claim C6 as stated: this registered set induces a
dependency cycle (Assembly1 ↔ Assembly2), yet assemble() returns a
MissingDependency error (for Assembly3), not a CyclicDependency error. -/
theorem claim_C6_counterexample :
    (∃ z, Relation.TransGen (DepRel cexC6) z z)
    ∧ Assembler.assemble cexC6
        = (.error (.MissingDependency "Assembly3"
            "Required assembly not found for service: Z"), [])
    ∧ ∀ info, (Assembler.assemble cexC6).1 ≠ .error (.CyclicDependency info) := by
  refine ⟨⟨"Assembly1", Relation.TransGen.tail
      (Relation.TransGen.single (show DepRel cexC6 "Assembly1" "Assembly2" by decide))
      (show DepRel cexC6 "Assembly2" "Assembly1" by decide)⟩,
    by decide, ?_⟩
  intro info hinfo
  have h : (Assembler.assemble cexC6).1
      = .error (.MissingDependency "Assembly3"
          "Required assembly not found for service: Z") := by decide
  rw [h] at hinfo
  simp at hinfo

/-- Claim C6 as amended: for every registered set whose requires/provides
declarations induce a dependency cycle AND in which every required
capability has a registered provider, assemble() returns a
CyclicDependency error carrying the rendered reconstructed cycle path, and
no lifecycle hook is invoked (the trace is empty). -/
theorem claim_C6_amended {assemblies : List ServiceAssembly}
    (hnm : NoMissing assemblies)
    (hcyc : ∃ z, Relation.TransGen (DepRel assemblies) z z) :
    ∃ g', buildFull assemblies = .ok g'
      ∧ Assembler.assemble assemblies
          = (.error (.CyclicDependency (cycleInfo (g'.topological_sort).cycle_path)), []) := by
  obtain ⟨g', hok⟩ := buildFull_ok_of_noMissing hnm
  obtain ⟨hwf, _, hrel⟩ := buildFull_ok_spec hok
  obtain ⟨z, hz⟩ := hcyc
  have hz' : Relation.TransGen (EdgeRel g') z z :=
    Relation.TransGen.mono (fun a b h => (hrel a b).mpr h) hz
  exact ⟨g', hok, assemble_eq_cycle hok (topological_sort_cycle hwf hz')⟩

/-- The two-assembly provides/requires cycle of the spec scenario. -/
def cexC6w : List ServiceAssembly :=
  [⟨"Assembly1", ["A"], ["B"], .ok (), .ok (), .ok (), .ok (), .ok ()⟩,
   ⟨"Assembly2", ["B"], ["A"], .ok (), .ok (), .ok (), .ok (), .ok ()⟩]

/-- Witness for the amended C6 on the two-assembly cycle. -/
theorem claim_C6_amended_witness :
    ∃ g', buildFull cexC6w = .ok g'
      ∧ Assembler.assemble cexC6w
          = (.error (.CyclicDependency (cycleInfo (g'.topological_sort).cycle_path)), []) :=
  claim_C6_amended (by decide)
    ⟨"Assembly1", Relation.TransGen.tail
      (Relation.TransGen.single (show DepRel cexC6w "Assembly1" "Assembly2" by decide))
      (show DepRel cexC6w "Assembly2" "Assembly1" by decide)⟩

/-- Counterexample to claim C7 as stated: registering two assemblies with
the same name makes a successful assemble() store a list that is NOT a
permutation of the registered one (the second registration is dropped:
vertices are keyed by name and the lookup picks the first match). -/
theorem claim_C7_counterexample :
    (Assembler.assemble
      [(⟨"A", [], [], .ok (), .ok (), .ok (), .ok (), .ok ()⟩ : ServiceAssembly),
       ⟨"A", [], [], .ok (), .ok (), .ok (), .ok (), .ok ()⟩]).1
      = .ok [⟨"A", [], [], .ok (), .ok (), .ok (), .ok (), .ok ()⟩]
    ∧ ¬ ([(⟨"A", [], [], .ok (), .ok (), .ok (), .ok (), .ok ()⟩ : ServiceAssembly)]).Perm
        [⟨"A", [], [], .ok (), .ok (), .ok (), .ok (), .ok ()⟩,
         ⟨"A", [], [], .ok (), .ok (), .ok (), .ok (), .ok ()⟩] := by
  refine ⟨by decide, ?_⟩
  intro h
  have := h.length_eq
  simp at this

/-- Claim C7 as amended: for every registered list with pairwise-distinct
assembly names, a successful assemble() stores exactly a permutation of
the registered assemblies: the same references with the same multiplicity,
none duplicated or dropped, only reordered. -/
theorem claim_C7_amended {assemblies out : List ServiceAssembly}
    (hnames : (assemblies.map (·.name)).Nodup)
    (h : (Assembler.assemble assemblies).1 = .ok out) :
    out.Perm assemblies := by
  obtain ⟨g', hok, hc, hout⟩ := assemble_ok_elim h
  obtain ⟨hwf, hmem, _⟩ := buildFull_ok_spec hok
  have hperm1 : (g'.topological_sort).sorted_order.Perm g'.ids :=
    topological_sort_perm hwf hc
  have hperm2 : g'.ids.Perm (assemblies.map (·.name)) := by
    refine (List.perm_ext_iff_of_nodup hwf.idsNodup hnames).mpr ?_
    intro x
    rw [hmem x, List.mem_map]
  subst hout
  unfold orderedOf
  have hrevperm : (g'.topological_sort).sorted_order.reverse.Perm
      (assemblies.map (·.name)) :=
    ((g'.topological_sort).sorted_order.reverse_perm).trans (hperm1.trans hperm2)
  have hfm := List.Perm.filterMap (fun n => assemblies.find? (fun a => a.name == n)) hrevperm
  rw [filterMap_find_names assemblies hnames] at hfm
  exact hfm

/-- Witness for the amended C7: two independent assemblies come back
reordered but intact. -/
theorem claim_C7_amended_witness :
    ([(⟨"B", [], [], .ok (), .ok (), .ok (), .ok (), .ok ()⟩ : ServiceAssembly),
      ⟨"A", [], [], .ok (), .ok (), .ok (), .ok (), .ok ()⟩]).Perm
      [(⟨"A", [], [], .ok (), .ok (), .ok (), .ok (), .ok ()⟩ : ServiceAssembly),
       ⟨"B", [], [], .ok (), .ok (), .ok (), .ok (), .ok ()⟩] :=
  claim_C7_amended (by decide) (by decide)

theorem assemble_pair {p c : ServiceAssembly} {X Y : TypeKey}
    (hpn : p.name ≠ c.name) (hXY : X ≠ Y)
    (hpp : p.provides = [X]) (hpr : p.requires = [])
    (hcp : c.provides = [Y]) (hcr : c.requires = [X])
    (hpi : p.init = .ok ()) (hppr : p.prepare = .ok ()) (hps : p.start = .ok ())
    (hci : c.init = .ok ()) (hcpr : c.prepare = .ok ()) (hcs : c.start = .ok ())
    (as : List ServiceAssembly) (has : as = [p, c] ∨ as = [c, p]) :
    (Assembler.assemble as).1 = .ok [p, c] := by
  have hmem_iff : ∀ a, a ∈ as ↔ (a = p ∨ a = c) := by
    rcases has with h | h <;> subst h <;> intro a <;> simp <;> tauto
  have hmap : lookupKey (mappedAssemblies as) X = some p.name := by
    rcases has with h | h <;> subst h <;>
      simp [mappedAssemblies, hpp, hcp, lookupKey, Ne.symm hXY]
  have hNM : NoMissing as := by
    intro a ha k hk
    rcases (hmem_iff a).mp ha with h | h
    · subst h
      rw [hpr] at hk
      cases hk
    · subst h
      rw [hcr] at hk
      refine ⟨p, (hmem_iff p).mpr (Or.inl rfl), ?_⟩
      rw [hpp]
      exact hk
  obtain ⟨g', hok⟩ := buildFull_ok_of_noMissing hNM
  obtain ⟨hwf, hmemids, hrel⟩ := buildFull_ok_spec hok
  have hedge : ∀ u v, EdgeRel g' u v ↔ (u = c.name ∧ v = p.name) := by
    intro u v
    rw [hrel u v]
    constructor
    · rintro ⟨a, ha, hname, k, hk, hl⟩
      rcases (hmem_iff a).mp ha with h | h
      · subst h
        rw [hpr] at hk
        cases hk
      · subst h
        rw [hcr] at hk
        rw [List.mem_singleton.mp hk] at hl
        rw [hmap] at hl
        exact ⟨hname.symm, (Option.some_inj.mp hl).symm⟩
    · rintro ⟨hu, hv⟩
      refine ⟨c, (hmem_iff c).mpr (Or.inr rfl), hu.symm, X, ?_, ?_⟩
      · rw [hcr]; simp
      · rw [hmap, hv]
  have hacyc : Acyclic g' := acyclic_of_single
    (fun u v h => (hedge u v).mp h) (Ne.symm hpn)
  obtain ⟨hc1, hperm, hbef⟩ := topological_sort_acyclic hwf hacyc
  have hids : g'.ids.Perm [c.name, p.name] := by
    refine (List.perm_ext_iff_of_nodup hwf.idsNodup (by simp [Ne.symm hpn])).mpr ?_
    intro x
    rw [hmemids x]
    constructor
    · rintro ⟨a, ha, hax⟩
      rcases (hmem_iff a).mp ha with h | h <;> subst h
      · simp [hax.symm]
      · simp [hax.symm]
    · intro hx
      rcases (by simpa using hx : x = c.name ∨ x = p.name) with h | h
      · exact ⟨c, (hmem_iff c).mpr (Or.inr rfl), h.symm⟩
      · exact ⟨p, (hmem_iff p).mpr (Or.inl rfl), h.symm⟩
  have hsorted : (g'.topological_sort).sorted_order = [c.name, p.name] :=
    two_elem_of_before (Ne.symm hpn) (hperm.trans hids)
      (hbef c.name p.name ((hedge c.name p.name).mpr ⟨rfl, rfl⟩))
  have hfp : as.find? (fun a => a.name == p.name) = some p := by
    rcases has with h | h <;> subst h
    · exact List.find?_cons_of_pos _ (by simp)
    · rw [List.find?_cons_of_neg _ (by simpa using Ne.symm hpn)]
      exact List.find?_cons_of_pos _ (by simp)
  have hfc : as.find? (fun a => a.name == c.name) = some c := by
    rcases has with h | h <;> subst h
    · rw [List.find?_cons_of_neg _ (by simpa using hpn)]
      exact List.find?_cons_of_pos _ (by simp)
    · exact List.find?_cons_of_pos _ (by simp)
  have hordered : orderedOf as g' = [p, c] := by
    unfold orderedOf
    rw [hsorted]
    simp [List.filterMap_cons, hfp, hfc]
  have hhooks : ∀ a ∈ orderedOf as g',
      a.init = .ok () ∧ a.prepare = .ok () ∧ a.start = .ok () := by
    rw [hordered]
    intro a ha
    rcases (by simpa using ha : a = p ∨ a = c) with h | h <;> subst h
    · exact ⟨hpi, hppr, hps⟩
    · exact ⟨hci, hcpr, hcs⟩
  rw [assemble_eq_success hok hc1 hhooks, hordered]

/-- Claim C2: for every Provider providing capability X and Consumer
providing Y and requiring X (distinct names and capabilities, all forward
hooks succeeding), assemble() returns Ok and the stored execution order —
the reverse of the topological sort — is [Provider, Consumer] regardless
of the order in which the two were registered. -/
theorem claim_C2 {p c : ServiceAssembly} {X Y : TypeKey}
    (hpn : p.name ≠ c.name) (hXY : X ≠ Y)
    (hpp : p.provides = [X]) (hpr : p.requires = [])
    (hcp : c.provides = [Y]) (hcr : c.requires = [X])
    (hpi : p.init = .ok ()) (hppr : p.prepare = .ok ()) (hps : p.start = .ok ())
    (hci : c.init = .ok ()) (hcpr : c.prepare = .ok ()) (hcs : c.start = .ok ()) :
    (Assembler.assemble [p, c]).1 = .ok [p, c]
    ∧ (Assembler.assemble [c, p]).1 = .ok [p, c] :=
  ⟨assemble_pair hpn hXY hpp hpr hcp hcr hpi hppr hps hci hcpr hcs [p, c] (Or.inl rfl),
   assemble_pair hpn hXY hpp hpr hcp hcr hpi hppr hps hci hcpr hcs [c, p] (Or.inr rfl)⟩

/-- Witness for C2 on a concrete Provider/Consumer pair. -/
theorem claim_C2_witness :
    (Assembler.assemble
      [(⟨"Provider", ["X"], [], .ok (), .ok (), .ok (), .ok (), .ok ()⟩ : ServiceAssembly),
       ⟨"Consumer", ["Y"], ["X"], .ok (), .ok (), .ok (), .ok (), .ok ()⟩]).1
      = .ok [⟨"Provider", ["X"], [], .ok (), .ok (), .ok (), .ok (), .ok ()⟩,
             ⟨"Consumer", ["Y"], ["X"], .ok (), .ok (), .ok (), .ok (), .ok ()⟩]
    ∧ (Assembler.assemble
      [(⟨"Consumer", ["Y"], ["X"], .ok (), .ok (), .ok (), .ok (), .ok ()⟩ : ServiceAssembly),
       ⟨"Provider", ["X"], [], .ok (), .ok (), .ok (), .ok (), .ok ()⟩]).1
      = .ok [⟨"Provider", ["X"], [], .ok (), .ok (), .ok (), .ok (), .ok ()⟩,
             ⟨"Consumer", ["Y"], ["X"], .ok (), .ok (), .ok (), .ok (), .ok ()⟩] :=
  claim_C2 (by decide) (by decide) rfl rfl rfl rfl rfl rfl rfl rfl rfl rfl

end Assemblr
